import Mathlib

/-!
Verification of the dynamic JSON value engine of the go-util repository
(package jsonx, file jsonx.go, plus the Flatten/Unflatten helpers).

The Go code stores an untyped tree in `interface{}` values, where
`map[string]interface{}` and `[]interface{}` are mutable reference types.
We embed this with an explicit heap: a `GoVal` is either an immutable
scalar or a reference (an index) into a heap of map cells and slice cells.
Go map cells are association lists with unique keys; Go slices are modeled
as a cell holding the backing elements.  Growing a slice with `append`
returns a slice header that is, as far as any other holder of the old
header can observe, a brand new cell: elements past the old length are
invisible through the old header, and element writes after a growth are
never performed at indices below the old length by this code.  We
therefore model every length-increasing `append` as allocating a fresh
cell, which is observationally equivalent for this code base.

Numbers: Go `int` and `int64` are kept as separate variants (the type
switches in the source distinguish them); `float64` payloads are modeled
by their exact rational value (`Rat`).  Runtime panics (here: `make` with
a negative length) are modeled by returning `none`.
-/

namespace Jsonx

/-- A Go `interface{}` value as used by package jsonx: a scalar, or a
reference to a map cell / slice cell in the heap. -/
inductive GoVal where
  | null : GoVal
  | goBool (b : Bool) : GoVal
  | goInt (n : Int) : GoVal
  | goInt64 (n : Int) : GoVal
  | goFloat (q : Rat) : GoVal
  | goStr (s : String) : GoVal
  | arrRef (a : Nat) : GoVal
  | objRef (o : Nat) : GoVal
deriving Repr, DecidableEq

/-- The mutable store: `arrs` holds the `[]interface{}` backing cells,
`objs` holds the `map[string]interface{}` cells.  An address is an index
into the respective list; allocation appends. -/
structure Heap where
  arrs : List (List GoVal)
  objs : List (List (String × GoVal))
deriving Repr, DecidableEq

/-- Contents of a slice cell (dangling addresses read as empty). -/
def arrCell (h : Heap) (a : Nat) : List GoVal := h.arrs.getD a []

/-- Contents of a map cell (dangling addresses read as empty). -/
def objCell (h : Heap) (o : Nat) : List (String × GoVal) := h.objs.getD o []

/-- Overwrite a slice cell in place. -/
def writeArr (h : Heap) (a : Nat) (cell : List GoVal) : Heap :=
  { h with arrs := h.arrs.set a cell }

/-- Overwrite a map cell in place. -/
def writeObj (h : Heap) (o : Nat) (cell : List (String × GoVal)) : Heap :=
  { h with objs := h.objs.set o cell }

/-- Allocate a fresh slice cell, returning its address. -/
def allocArr (h : Heap) (cell : List GoVal) : Heap × Nat :=
  ({ h with arrs := h.arrs ++ [cell] }, h.arrs.length)

/-- Allocate a fresh map cell, returning its address. -/
def allocObj (h : Heap) (cell : List (String × GoVal)) : Heap × Nat :=
  ({ h with objs := h.objs ++ [cell] }, h.objs.length)

/-- Go map lookup `v, ok := m[k]`: first (unique) matching key. -/
def mapGet (cell : List (String × GoVal)) (k : String) : Option GoVal :=
  match cell.find? (fun kv => kv.1 = k) with
  | some kv => some kv.2
  | none => none

/-- Go map assignment `m[k] = v`: overwrite the existing entry, else append. -/
def mapSet (cell : List (String × GoVal)) (k : String) (v : GoVal) :
    List (String × GoVal) :=
  match cell with
  | [] => [(k, v)]
  | kv :: rest => if kv.1 = k then (k, v) :: rest else kv :: mapSet rest k v

/-- Go `delete(m, k)`. -/
def mapDel (cell : List (String × GoVal)) (k : String) : List (String × GoVal) :=
  match cell with
  | [] => []
  | kv :: rest => if kv.1 = k then rest else kv :: mapDel rest k

/-- `strconv.Atoi` (= `ParseInt(s, 10, 64)` on a 64-bit platform): an
optional sign followed by at least one ASCII digit, rejecting values
outside the `int64` range (Go reports `ErrRange` there, and every caller
in jsonx.go only tests `err == nil`). -/
def goAtoi (s : String) : Option Int :=
  let signed : Option (Bool × List Char) :=
    match s.data with
    | [] => none
    | '+' :: rest => some (false, rest)
    | '-' :: rest => some (true, rest)
    | l => some (false, l)
  match signed with
  | none => none
  | some (neg, ds) =>
    if ds.isEmpty then none
    else if ds.all Char.isDigit then
      let m : Nat := ds.foldl (fun acc c => acc * 10 + (c.toNat - 48)) 0
      let v : Int := if neg then -(m : Int) else (m : Int)
      if v < -(2 ^ 63) ∨ 2 ^ 63 - 1 < v then none else some v
    else none

/-- `strings.Split(s, ".")` (kernel-computable): splitting the empty
string yields `[""]`, and separators at the ends yield empty segments. -/
def splitCharsDot : List Char → List (List Char)
  | [] => [[]]
  | c :: rest =>
    if c = '.' then [] :: splitCharsDot rest
    else
      match splitCharsDot rest with
      | [] => [[c]]
      | g :: gs => (c :: g) :: gs

/-- Split a path on the dot separator. -/
def splitDot (s : String) : List String :=
  (splitCharsDot s.data).map (fun l => String.mk l)

/-- Decimal digit character. -/
def digitChar (n : Nat) : Char := Char.ofNat (48 + n)

/-- Decimal rendering of a natural number (kernel-computable model of
`strconv.Itoa` for non-negative values; the first argument is fuel). -/
def natDigitsAux : Nat → Nat → List Char
  | 0, _ => []
  | Nat.succ f, n => if n = 0 then [] else natDigitsAux f (n / 10) ++ [digitChar (n % 10)]

/-- Decimal rendering of a natural number. -/
def natToString (n : Nat) : String :=
  if n = 0 then "0" else String.mk (natDigitsAux n n)

/-- Decimal rendering of an integer (`%d`). -/
def intToString (i : Int) : String :=
  if i < 0 then "-" ++ natToString i.natAbs else natToString i.natAbs

/-- The `*JSON` struct: the wrapped payload and the sticky error slot.
Error values are modeled by their `fmt.Errorf` message text (without the
Go quoting of path segments). -/
structure JSON where
  data : GoVal
  err : Option String
deriving Repr, DecidableEq

/-- Loop body of `getByPath`: integer segments index arrays (with a
bounds check); any other combination falls through to the object-key
case, which fails on missing keys and on non-object containers. -/
def getByPathLoop (h : Heap) (cur : GoVal) (parts : List String)
    (fullPath : String) : Except String GoVal :=
  match parts with
  | [] => .ok cur
  | part :: rest =>
    match goAtoi part, cur with
    | some idx, GoVal.arrRef a =>
      let cell := arrCell h a
      if idx < 0 ∨ (cell.length : Int) ≤ idx then
        .error ("array index out of range: " ++ intToString idx)
      else
        getByPathLoop h (cell.getD idx.toNat GoVal.null) rest fullPath
    | _, _ =>
      match cur with
      | GoVal.objRef o =>
        match mapGet (objCell h o) part with
        | some v => getByPathLoop h v rest fullPath
        | none => .error ("path not found: " ++ fullPath)
      | _ => .error ("cannot access property " ++ part ++ " on non-object")

/-- `getByPath`: empty path returns the receiver payload. -/
def getByPath (h : Heap) (j : JSON) (path : String) : Except String GoVal :=
  if path = "" then .ok j.data
  else getByPathLoop h j.data (splitDot path) path

/-- Method `Get`: short-circuits on a sticky error, otherwise wraps the
resolved payload or the navigation error. -/
def JSON.Get (h : Heap) (j : JSON) (path : String) : JSON :=
  match j.err with
  | some _ => j
  | none =>
    match getByPath h j path with
    | .ok v => { data := v, err := none }
    | .error e => { data := GoVal.null, err := some e }

/-- Method `Has`: `getByPath` succeeding, `false` on an errored receiver. -/
def JSON.Has (h : Heap) (j : JSON) (path : String) : Bool :=
  match j.err with
  | some _ => false
  | none =>
    match getByPath h j path with
    | .ok _ => true
    | .error _ => false

/-- The growth loop `for len(arr) <= idx { arr = append(arr, nil) }`.
If the slice is already long enough the header (cell) is unchanged;
otherwise the growth yields a fresh cell padded with `nil`, and the old
cell keeps its old contents (holders of the old header observe nothing). -/
def growTo (h : Heap) (a : Nat) (idx : Nat) : Heap × Nat :=
  let cell := arrCell h a
  if cell.length ≤ idx then
    allocArr h (cell ++ List.replicate (idx + 1 - cell.length) GoVal.null)
  else (h, a)

/-- Path-segment join used for `currentPath` bookkeeping in the source. -/
def joinPath (cur part : String) : String :=
  if cur = "" then part else cur ++ "." ++ part

/-- Loop of `updateDataReference`: re-navigates from the root along
`parts`; at the last segment the new reference is written back only when
the container reached is a map.  Mismatched steps leave `cur` unchanged
(the Go loop has no else branches), and a missing object key reads as nil. -/
def udrLoop (h : Heap) (cur : GoVal) (parts : List String) (newRef : GoVal) :
    Heap :=
  match parts with
  | [] => h
  | [last] =>
    match cur with
    | GoVal.objRef o => writeObj h o (mapSet (objCell h o) last newRef)
    | _ => h
  | part :: rest =>
    let cur' : GoVal :=
      match goAtoi part with
      | some idx =>
        match cur with
        | GoVal.arrRef a =>
          let cell := arrCell h a
          if 0 ≤ idx ∧ idx < (cell.length : Int) then cell.getD idx.toNat GoVal.null
          else cur
        | _ => cur
      | none =>
        match cur with
        | GoVal.objRef o => (mapGet (objCell h o) part).getD GoVal.null
        | _ => cur
    udrLoop h cur' rest newRef

/-- `updateDataReference` acting on the pair (heap, root payload): an
empty path replaces the root reference itself. -/
def updateDataReference (st : Heap × GoVal) (newRef : GoVal) (path : String) :
    Heap × GoVal :=
  if path = "" then (st.1, newRef)
  else (udrLoop st.1 st.2 (splitDot path) newRef, st.2)

/-- `setByPathRecursive`.  The state is (heap, root payload); `cur` is the
container currently descended into; `none` models a runtime panic
(`make([]interface{}, n)` with `n < 0`).  The error string in the result
is the error returned by the Go function; partial mutations performed
before an error are kept, as in Go. -/
def setByPathRecursive (st : Heap × GoVal) (cur : GoVal) (parts : List String)
    (value : GoVal) (curPath : String) :
    Option ((Heap × GoVal) × Option String) :=
  match parts with
  | [] => some (st, some "empty path parts")
  | [part] =>
    match goAtoi part with
    | some idx =>
      match cur with
      | GoVal.arrRef a =>
        if idx < 0 ∨ 10000 ≤ idx then
          some (st, some ("invalid array index: " ++ intToString idx))
        else
          let (h1, a1) := growTo st.1 a idx.toNat
          let h2 := writeArr h1 a1 ((arrCell h1 a1).set idx.toNat value)
          some (updateDataReference (h2, st.2) (GoVal.arrRef a1) curPath, none)
      | _ => some (st, some "cannot set array index on non-array")
    | none =>
      match cur with
      | GoVal.objRef o =>
        some ((writeObj st.1 o (mapSet (objCell st.1 o) part value), st.2), none)
      | _ => some (st, some "cannot set property on non-object")
  | part :: rest =>
    let nextPart := rest.headD ""
    match goAtoi part with
    | some idx =>
      match cur with
      | GoVal.arrRef a =>
        if idx < 0 ∨ 10000 ≤ idx then
          some (st, some ("invalid array index: " ++ intToString idx))
        else
          let (h1, a1) := growTo st.1 a idx.toNat
          let fill : Option (Heap × Nat) :=
            if (arrCell h1 a1).getD idx.toNat GoVal.null = GoVal.null then
              match goAtoi nextPart with
              | some nIdx =>
                if nIdx + 1 < 0 then none
                else
                  let (h2, b) :=
                    allocArr h1 (List.replicate (nIdx + 1).toNat GoVal.null)
                  some (writeArr h2 a1 ((arrCell h2 a1).set idx.toNat (GoVal.arrRef b)), a1)
              | none =>
                let (h2, b) := allocObj h1 []
                some (writeArr h2 a1 ((arrCell h2 a1).set idx.toNat (GoVal.objRef b)), a1)
            else some (h1, a1)
          match fill with
          | none => none
          | some (h3, a3) =>
            let nextCur := (arrCell h3 a3).getD idx.toNat GoVal.null
            let st3 := updateDataReference (h3, st.2) (GoVal.arrRef a3) curPath
            setByPathRecursive st3 nextCur rest value (joinPath curPath part)
      | _ => some (st, some "cannot access array index on non-array")
    | none =>
      match cur with
      | GoVal.objRef o =>
        let cell := objCell st.1 o
        let st1 : Heap × GoVal :=
          match mapGet cell part with
          | some _ => st
          | none =>
            match goAtoi nextPart with
            | some _ =>
              let (h2, b) := allocArr st.1 []
              (writeObj h2 o (mapSet (objCell h2 o) part (GoVal.arrRef b)), st.2)
            | none =>
              let (h2, b) := allocObj st.1 []
              (writeObj h2 o (mapSet (objCell h2 o) part (GoVal.objRef b)), st.2)
        let nextCur := (mapGet (objCell st1.1 o) part).getD GoVal.null
        setByPathRecursive st1 nextCur rest value (joinPath curPath part)
      | _ => some (st, some "cannot access property on non-object")
  termination_by structural parts

/-- `setByPath`: empty path replaces the whole payload; a nil root is
coerced into a fresh array (`make([]interface{}, idx+1)`, which panics
for `idx <= -2`) or a fresh object before descending. -/
def setByPath (h : Heap) (j : JSON) (path : String) (value : GoVal) :
    Option (Heap × GoVal × Option String) :=
  if path = "" then some (h, value, none)
  else
    let parts := splitDot path
    let rooted : Option (Heap × GoVal) :=
      if j.data = GoVal.null then
        match goAtoi (parts.headD "") with
        | some idx =>
          if idx + 1 < 0 then none
          else
            let (h1, a) := allocArr h (List.replicate (idx + 1).toNat GoVal.null)
            some (h1, GoVal.arrRef a)
        | none =>
          let (h1, o) := allocObj h []
          some (h1, GoVal.objRef o)
      else some (h, j.data)
    match rooted with
    | none => none
    | some (h1, root) =>
      match setByPathRecursive (h1, root) root parts value "" with
      | none => none
      | some ((h2, root2), e) => some (h2, root2, e)

/-- Method `Set`: sticky-error short circuit, then `setByPath`; the
result wraps the (possibly mutated) payload together with the error. -/
def JSON.Set (h : Heap) (j : JSON) (path : String) (value : GoVal) :
    Option (Heap × JSON) :=
  match j.err with
  | some _ => some (h, j)
  | none =>
    match setByPath h j path value with
    | none => none
    | some (h1, root, e) => some (h1, { data := root, err := e })

/-- Walk of `deleteByPath` over all segments but the last (same stepping
as `getByPath`), returning the container that holds the final segment. -/
def deleteWalk (h : Heap) (cur : GoVal) (parts : List String)
    (fullPath : String) : Except String GoVal :=
  match parts with
  | [] => .ok cur
  | part :: rest =>
    match goAtoi part, cur with
    | some idx, GoVal.arrRef a =>
      let cell := arrCell h a
      if idx < 0 ∨ (cell.length : Int) ≤ idx then
        .error ("array index out of range: " ++ intToString idx)
      else
        deleteWalk h (cell.getD idx.toNat GoVal.null) rest fullPath
    | _, _ =>
      match cur with
      | GoVal.objRef o =>
        match mapGet (objCell h o) part with
        | some v => deleteWalk h v rest fullPath
        | none => .error ("path not found: " ++ fullPath)
      | _ => .error ("cannot access property " ++ part ++ " on non-object")

/-- `deleteByPath`: empty path nils the payload; otherwise walk to the
parent and `delete` the final key, which requires a map container. -/
def deleteByPath (h : Heap) (j : JSON) (path : String) :
    Heap × GoVal × Option String :=
  if path = "" then (h, GoVal.null, none)
  else
    let parts := splitDot path
    match deleteWalk h j.data (parts.dropLast) path with
    | .error e => (h, j.data, some e)
    | .ok parent =>
      match parent with
      | GoVal.objRef o =>
        (writeObj h o (mapDel (objCell h o) (parts.getLastD "")), j.data, none)
      | _ => (h, j.data, some "cannot delete from non-object")

/-- Method `Delete`. -/
def JSON.Delete (h : Heap) (j : JSON) (path : String) : Heap × JSON :=
  match j.err with
  | some _ => (h, j)
  | none =>
    match deleteByPath h j path with
    | (h1, root, e) => (h1, { data := root, err := e })

/-- Method `Index`: requires an array shape and a valid index. -/
def JSON.Index (h : Heap) (j : JSON) (i : Int) : JSON :=
  match j.err with
  | some _ => j
  | none =>
    match j.data with
    | GoVal.arrRef a =>
      let cell := arrCell h a
      if i < 0 ∨ (cell.length : Int) ≤ i then
        { data := GoVal.null, err := some "index out of range" }
      else { data := cell.getD i.toNat GoVal.null, err := none }
    | _ => { data := GoVal.null, err := some "not an array" }

/-- Method `Append`: `j.data = append(arr, values...)` allocates (at the
latest when capacity runs out) a header the receiver then points to; the
old cell is unchanged. -/
def JSON.Append (h : Heap) (j : JSON) (values : List GoVal) : Heap × JSON :=
  match j.err with
  | some _ => (h, j)
  | none =>
    match j.data with
    | GoVal.arrRef a =>
      let (h1, b) := allocArr h (arrCell h a ++ values)
      (h1, { data := GoVal.arrRef b, err := none })
    | _ => (h, { data := j.data, err := some "not an array" })

/-- Method `Prepend`: `append(values, arr...)`. -/
def JSON.Prepend (h : Heap) (j : JSON) (values : List GoVal) : Heap × JSON :=
  match j.err with
  | some _ => (h, j)
  | none =>
    match j.data with
    | GoVal.arrRef a =>
      let (h1, b) := allocArr h (values ++ arrCell h a)
      (h1, { data := GoVal.arrRef b, err := none })
    | _ => (h, { data := j.data, err := some "not an array" })

/-- Method `Remove`: `append(arr[:index], arr[index+1:]...)`; the
receiver ends up on a header without the removed element. -/
def JSON.Remove (h : Heap) (j : JSON) (index : Int) : Heap × JSON :=
  match j.err with
  | some _ => (h, j)
  | none =>
    match j.data with
    | GoVal.arrRef a =>
      let cell := arrCell h a
      if index < 0 ∨ (cell.length : Int) ≤ index then
        (h, { data := j.data, err := some "index out of range" })
      else
        let (h1, b) :=
          allocArr h (cell.take index.toNat ++ cell.drop (index.toNat + 1))
        (h1, { data := GoVal.arrRef b, err := none })
    | _ => (h, { data := j.data, err := some "not an array" })

/-- Method `Length`: element count for arrays, key count for objects,
`len(v)` (UTF-8 byte count) for strings, otherwise 0. -/
def JSON.Length (h : Heap) (j : JSON) : Nat :=
  match j.err with
  | some _ => 0
  | none =>
    match j.data with
    | GoVal.arrRef a => (arrCell h a).length
    | GoVal.objRef o => (objCell h o).length
    | GoVal.goStr s => s.utf8ByteSize
    | _ => 0

/-- Method `Merge` (shallow): both sides must be objects; the result is a
fresh map holding all receiver entries and then all argument entries. -/
def JSON.Merge (h : Heap) (j other : JSON) : Heap × JSON :=
  match j.err with
  | some _ => (h, j)
  | none =>
    match other.err with
    | some e => (h, { data := j.data, err := some e })
    | none =>
      match j.data, other.data with
      | GoVal.objRef oa, GoVal.objRef ob =>
        let cell :=
          (objCell h ob).foldl (fun acc kv => mapSet acc kv.1 kv.2)
            ((objCell h oa).foldl (fun acc kv => mapSet acc kv.1 kv.2) [])
        let (h1, r) := allocObj h cell
        (h1, { data := GoVal.objRef r, err := none })
      | _, _ => (h, { data := j.data, err := some "both values must be objects" })

mutual

/-- `deepClone`: maps and slices are rebuilt in fresh cells at every
level, scalars are copied by value.  The fuel models the Go call stack
(`none` = the recursion would not come back, e.g. on a cyclic value). -/
def deepClone : Nat → Heap → GoVal → Option (Heap × GoVal)
  | 0, _, _ => none
  | Nat.succ fuel, h, GoVal.objRef o =>
    match deepClonePairs fuel h (objCell h o) with
    | none => none
    | some (h1, cell) =>
      let (h2, r) := allocObj h1 cell
      some (h2, GoVal.objRef r)
  | Nat.succ fuel, h, GoVal.arrRef a =>
    match deepCloneElems fuel h (arrCell h a) with
    | none => none
    | some (h1, cell) =>
      let (h2, r) := allocArr h1 cell
      some (h2, GoVal.arrRef r)
  | Nat.succ _, h, v => some (h, v)
  termination_by fuel _ _ => (fuel, 0)

/-- Clone every value of a map cell, threading the heap. -/
def deepClonePairs : Nat → Heap → List (String × GoVal) →
    Option (Heap × List (String × GoVal))
  | _, h, [] => some (h, [])
  | fuel, h, kv :: rest =>
    match deepClone fuel h kv.2 with
    | none => none
    | some (h1, v1) =>
      match deepClonePairs fuel h1 rest with
      | none => none
      | some (h2, t) => some (h2, (kv.1, v1) :: t)
  termination_by fuel _ l => (fuel, l.length + 1)

/-- Clone every element of a slice cell, threading the heap. -/
def deepCloneElems : Nat → Heap → List GoVal → Option (Heap × List GoVal)
  | _, h, [] => some (h, [])
  | fuel, h, v :: rest =>
    match deepClone fuel h v with
    | none => none
    | some (h1, v1) =>
      match deepCloneElems fuel h1 rest with
      | none => none
      | some (h2, t) => some (h2, v1 :: t)
  termination_by fuel _ l => (fuel, l.length + 1)

end

/-- Method `Clone`: an errored receiver yields `&JSON{err: j.err}` (nil
payload); otherwise a deep clone of the payload. -/
def JSON.Clone (fuel : Nat) (h : Heap) (j : JSON) : Option (Heap × JSON) :=
  match j.err with
  | some e => some (h, { data := GoVal.null, err := some e })
  | none =>
    match deepClone fuel h j.data with
    | none => none
    | some (h1, v) => some (h1, { data := v, err := none })

mutual

/-- `deepMerge`: when both sides are maps, start from the receiver
entries and merge the argument entries in (recursing on key conflicts);
for every other combination the result is a deep clone of the source. -/
def deepMergeV : Nat → Heap → GoVal → GoVal → Option (Heap × GoVal)
  | 0, _, _, _ => none
  | Nat.succ fuel, h, GoVal.objRef da, GoVal.objRef sa =>
    match deepMergeFold fuel h (objCell h da) (objCell h sa) with
    | none => none
    | some (h1, cell) =>
      let (h2, r) := allocObj h1 cell
      some (h2, GoVal.objRef r)
  | Nat.succ fuel, h, _, src => deepClone (Nat.succ fuel) h src
  termination_by fuel _ _ _ => (fuel, 0)

/-- The `for k, v := range srcMap` loop of `deepMerge`, acting on the
result map being built. -/
def deepMergeFold : Nat → Heap → List (String × GoVal) →
    List (String × GoVal) → Option (Heap × List (String × GoVal))
  | _, h, acc, [] => some (h, acc)
  | fuel, h, acc, kv :: rest =>
    match mapGet acc kv.1 with
    | some dv =>
      match deepMergeV fuel h dv kv.2 with
      | none => none
      | some (h1, v1) => deepMergeFold fuel h1 (mapSet acc kv.1 v1) rest
    | none =>
      match deepClone fuel h kv.2 with
      | none => none
      | some (h1, v1) => deepMergeFold fuel h1 (mapSet acc kv.1 v1) rest
  termination_by fuel _ _ l => (fuel, l.length + 1)

end

/-- Method `DeepMerge`. -/
def JSON.DeepMerge (fuel : Nat) (h : Heap) (j other : JSON) :
    Option (Heap × JSON) :=
  match j.err with
  | some _ => some (h, j)
  | none =>
    match other.err with
    | some e => some (h, { data := j.data, err := some e })
    | none =>
      match deepMergeV fuel h j.data other.data with
      | none => none
      | some (h1, v) => some (h1, { data := v, err := none })

/-- Method `Map`: element-wise transform into a fresh container of the
same shape; non-collections are returned unchanged.  Callbacks are
modeled as pure functions (their own side effects are out of scope). -/
def JSON.Map (h : Heap) (j : JSON) (fn : String → JSON → GoVal) : Heap × JSON :=
  match j.err with
  | some _ => (h, j)
  | none =>
    match j.data with
    | GoVal.arrRef a =>
      let cell := arrCell h a
      let (h1, b) :=
        allocArr h (cell.enum.map fun p => fn (natToString p.1) { data := p.2, err := none })
      (h1, { data := GoVal.arrRef b, err := none })
    | GoVal.objRef o =>
      let cell := objCell h o
      let (h1, r) :=
        allocObj h (cell.map fun kv => (kv.1, fn kv.1 { data := kv.2, err := none }))
      (h1, { data := GoVal.objRef r, err := none })
    | _ => (h, j)

/-- Method `Filter`: keep the elements/entries the predicate accepts, in
order, in a fresh container; non-collections are returned unchanged. -/
def JSON.Filter (h : Heap) (j : JSON) (fn : String → JSON → Bool) : Heap × JSON :=
  match j.err with
  | some _ => (h, j)
  | none =>
    match j.data with
    | GoVal.arrRef a =>
      let cell := arrCell h a
      let kept := (cell.enum.filter fun p => fn (natToString p.1) { data := p.2, err := none }).map Prod.snd
      let (h1, b) := allocArr h kept
      (h1, { data := GoVal.arrRef b, err := none })
    | GoVal.objRef o =>
      let cell := objCell h o
      let kept := cell.filter fun kv => fn kv.1 { data := kv.2, err := none }
      let (h1, r) := allocObj h kept
      (h1, { data := GoVal.objRef r, err := none })
    | _ => (h, j)

/-- Method `ForEach` always returns the receiver; the callback
invocations have no observable effect in the pure model (callback side
effects are outside the embedding), so the iteration is elided. -/
def JSON.ForEach (_h : Heap) (j : JSON) (_fn : String → JSON → Bool) : JSON :=
  match j.err with
  | some _ => j
  | none => j

/-- Truncation of Go `int(f)` on a (finite) `float64`: rounding toward
zero.  Out-of-range conversions are implementation-specific in Go and
modeled as plain truncation. -/
def ratTruncToInt (q : Rat) : Int := Int.tdiv q.num (q.den : Int)

/-- `fmt.Sprintf("%v", x)` at scalar shapes.  Container and float
formatting delegate to the platform library; the placeholder renderings
for those shapes are a boundary model no theorem relies on. -/
def goSprintf : GoVal → String
  | GoVal.null => "<nil>"
  | GoVal.goBool b => if b then "true" else "false"
  | GoVal.goInt n => intToString n
  | GoVal.goInt64 n => intToString n
  | GoVal.goFloat _ => "float"
  | GoVal.goStr s => s
  | GoVal.arrRef _ => "[...]"
  | GoVal.objRef _ => "map[...]"

/-- Method `String` (the AsString accessor): native strings pass
through, nil and error-state give "", every other shape goes through the
default `%v` formatter. -/
def JSON.StringConv (j : JSON) : String :=
  match j.err with
  | some _ => ""
  | none =>
    match j.data with
    | GoVal.goStr s => s
    | GoVal.null => ""
    | v => goSprintf v

/-- Method `Int` (AsInt): handles `int`, `float64` (truncation) and
string (base-10 parse, 0 on failure); every other shape, including
`int64`, yields 0. -/
def JSON.IntConv (j : JSON) : Int :=
  match j.err with
  | some _ => 0
  | none =>
    match j.data with
    | GoVal.goInt n => n
    | GoVal.goFloat q => ratTruncToInt q
    | GoVal.goStr s => (goAtoi s).getD 0
    | _ => 0

/-- Method `Int64` (AsInt64): handles `int64`, `int`, `float64` and
string (`ParseInt(v, 10, 64)`). -/
def JSON.Int64Conv (j : JSON) : Int :=
  match j.err with
  | some _ => 0
  | none =>
    match j.data with
    | GoVal.goInt64 n => n
    | GoVal.goInt n => n
    | GoVal.goFloat q => ratTruncToInt q
    | GoVal.goStr s => (goAtoi s).getD 0
    | _ => 0

/-- Boundary model of `strconv.ParseFloat(s, 64)` on the plain decimal
grammar `[+-]? (digits [. digits*] | . digits+) ([eE][+-]?digits+)?`,
producing the exact rational value (IEEE rounding, hex floats, inf/nan
and underscores are not modeled; no theorem relies on those). -/
def goParseFloat (s : String) : Option Rat :=
  let signed : Bool × List Char :=
    match s.data with
    | '+' :: rest => (false, rest)
    | '-' :: rest => (true, rest)
    | l => (false, l)
  let neg := signed.1
  let l := signed.2
  let ip := l.takeWhile Char.isDigit
  let r1 := l.drop ip.length
  let fpr : List Char × List Char :=
    match r1 with
    | '.' :: t => (t.takeWhile Char.isDigit, t.drop (t.takeWhile Char.isDigit).length)
    | _ => ([], r1)
  let fp := fpr.1
  let r2 := fpr.2
  if ip.isEmpty ∧ fp.isEmpty then none
  else if r1 ≠ [] ∧ fpr.1 = [] ∧ fpr.2 = r1 ∧ r1.headD ' ' = '.' then none
  else
    let digitsVal : List Char → Nat := fun ds => ds.foldl (fun acc c => acc * 10 + (c.toNat - 48)) 0
    let mant : Rat := (digitsVal ip : Rat) + (digitsVal fp : Rat) / ((10 : Rat) ^ fp.length)
    let expPart : Option Int :=
      match r2 with
      | [] => some 0
      | 'e' :: t => goAtoi (String.mk t)
      | 'E' :: t => goAtoi (String.mk t)
      | _ => none
    match expPart with
    | none => none
    | some e =>
      let mag : Rat := mant * (10 : Rat) ^ e
      some (if neg then -mag else mag)

/-- Method `Float64` (AsFloat): handles `float64`, `int` and string
(`ParseFloat`, 0 on failure); every other shape, including `int64`,
yields 0. -/
def JSON.Float64Conv (j : JSON) : Rat :=
  match j.err with
  | some _ => 0
  | none =>
    match j.data with
    | GoVal.goFloat q => q
    | GoVal.goInt n => (n : Rat)
    | GoVal.goStr s => (goParseFloat s).getD 0
    | _ => 0

/-- Method `Bool` (AsBool): native bools pass through; a string is true
exactly when it equals the literal "true" (not the `strconv.ParseBool`
grammar); `int` and `float64` are true when nonzero; every other shape,
including `int64`, yields false. -/
def JSON.BoolConv (j : JSON) : Bool :=
  match j.err with
  | some _ => false
  | none =>
    match j.data with
    | GoVal.goBool b => b
    | GoVal.goStr s => s = "true"
    | GoVal.goInt n => n ≠ 0
    | GoVal.goFloat q => q ≠ 0
    | _ => false

mutual

/-- `flattenRecursive`: walk the value, emitting `prefix -> leaf` entries
into the result map (modeled as successive Go map writes on an
association list, in cell order standing in for Go map iteration). -/
def flattenRec : Nat → Heap → GoVal → String → List (String × GoVal) →
    Option (List (String × GoVal))
  | 0, _, _, _, _ => none
  | Nat.succ fuel, h, GoVal.objRef o, pre, acc => flattenPairs fuel h (objCell h o) pre acc
  | Nat.succ fuel, h, GoVal.arrRef a, pre, acc => flattenElems fuel h (arrCell h a) 0 pre acc
  | Nat.succ _, _, v, pre, acc => some (mapSet acc pre v)
  termination_by fuel _ _ _ _ => (fuel, 0)

/-- Object branch of `flattenRecursive`. -/
def flattenPairs : Nat → Heap → List (String × GoVal) → String →
    List (String × GoVal) → Option (List (String × GoVal))
  | _, _, [], _, acc => some acc
  | fuel, h, kv :: rest, pre, acc =>
    match flattenRec fuel h kv.2 (joinPath pre kv.1) acc with
    | none => none
    | some acc1 => flattenPairs fuel h rest pre acc1
  termination_by fuel _ l _ _ => (fuel, l.length + 1)

/-- Array branch of `flattenRecursive` (`i` is the running index). -/
def flattenElems : Nat → Heap → List GoVal → Nat → String →
    List (String × GoVal) → Option (List (String × GoVal))
  | _, _, [], _, _, acc => some acc
  | fuel, h, v :: rest, i, pre, acc =>
    match flattenRec fuel h v (joinPath pre (natToString i)) acc with
    | none => none
    | some acc1 => flattenElems fuel h rest (i + 1) pre acc1
  termination_by fuel _ l _ _ _ => (fuel, l.length + 1)

end

/-- `Flatten`: flat mapping from dot-joined paths to leaf values.  Note
the Go function reads `j.data` without consulting the error slot. -/
def Flatten (fuel : Nat) (h : Heap) (j : JSON) : Option (List (String × GoVal)) :=
  flattenRec fuel h j.data "" []

/-- The `for path, value := range flat { result.Set(path, value) }` loop
of `Unflatten`: each entry is replayed through `setByPath` on the shared
root object, and the returned value — including its error — is
discarded.  The receiver keeps pointing at the originally allocated
object cell (its `data` field is only reassigned for nil roots or by a
root-level array write-back, neither of which can happen on an object
root). -/
def unflattenGo (r : Nat) : Heap → List (String × GoVal) → Option Heap
  | h, [] => some h
  | h, (p, v) :: rest =>
    match setByPath h { data := GoVal.objRef r, err := none } p v with
    | none => none
    | some (h1, _, _) => unflattenGo r h1 rest

/-- `Unflatten`: replay every flat entry through `Set` on a fresh
`Object()` root, in the mapping's iteration order (modeled as list
order). -/
def Unflatten (h : Heap) (flat : List (String × GoVal)) : Option (Heap × JSON) :=
  let (h1, r) := allocObj h []
  match unflattenGo r h1 flat with
  | none => none
  | some h2 => some (h2, { data := GoVal.objRef r, err := none })

/-- Pure JSON trees, used to state structural equality of heap values
(object entries are compared up to key order via sorting). -/
inductive JTree where
  | jnull : JTree
  | jbool (b : Bool) : JTree
  | jint (n : Int) : JTree
  | jint64 (n : Int) : JTree
  | jflt (q : Rat) : JTree
  | jstr (s : String) : JTree
  | jarr (xs : List JTree) : JTree
  | jobj (kvs : List (String × JTree)) : JTree
deriving Repr

/-- Insert a pair into a key-sorted list of pairs. -/
def insertPairByKey (p : String × JTree) : List (String × JTree) →
    List (String × JTree)
  | [] => [p]
  | q :: rest =>
    match compare p.1 q.1 with
    | Ordering.gt => q :: insertPairByKey p rest
    | _ => p :: q :: rest

/-- Sort object entries by key (canonical form for comparison). -/
def sortPairsByKey (l : List (String × JTree)) : List (String × JTree) :=
  l.foldr insertPairByKey []

mutual

/-- Read back a heap value as a pure tree (fuel bounds the depth;
object entries are key-sorted so tree equality is structural equality of
the Go values). -/
def toTree : Nat → Heap → GoVal → Option JTree
  | 0, _, _ => none
  | Nat.succ fuel, h, GoVal.arrRef a =>
    match toTreeElems fuel h (arrCell h a) with
    | none => none
    | some xs => some (JTree.jarr xs)
  | Nat.succ fuel, h, GoVal.objRef o =>
    match toTreePairs fuel h (objCell h o) with
    | none => none
    | some l => some (JTree.jobj (sortPairsByKey l))
  | Nat.succ _, _, GoVal.null => some JTree.jnull
  | Nat.succ _, _, GoVal.goBool b => some (JTree.jbool b)
  | Nat.succ _, _, GoVal.goInt n => some (JTree.jint n)
  | Nat.succ _, _, GoVal.goInt64 n => some (JTree.jint64 n)
  | Nat.succ _, _, GoVal.goFloat q => some (JTree.jflt q)
  | Nat.succ _, _, GoVal.goStr s => some (JTree.jstr s)
  termination_by fuel _ _ => (fuel, 0)

/-- Read back the elements of a slice cell. -/
def toTreeElems : Nat → Heap → List GoVal → Option (List JTree)
  | _, _, [] => some []
  | fuel, h, v :: rest =>
    match toTree fuel h v with
    | none => none
    | some t =>
      match toTreeElems fuel h rest with
      | none => none
      | some ts => some (t :: ts)
  termination_by fuel _ l => (fuel, l.length + 1)

/-- Read back the entries of a map cell. -/
def toTreePairs : Nat → Heap → List (String × GoVal) → Option (List (String × JTree))
  | _, _, [] => some []
  | fuel, h, kv :: rest =>
    match toTree fuel h kv.2 with
    | none => none
    | some t =>
      match toTreePairs fuel h rest with
      | none => none
      | some ts => some ((kv.1, t) :: ts)
  termination_by fuel _ l => (fuel, l.length + 1)

end

/-! ## Claim theorems -/

/-- C1: the get-after-set law fails on the code.  On the value `[[]]`
(an array whose only element is an empty array), `Set("0.0", 1)` returns
success (`err = none`): the inner array is grown to `[1]` in a fresh
cell (address 2), but `updateDataReference` refuses to write the new
header back because the parent container is an array, not a map — the
root still holds the old empty cell, so the write is silently lost and
the subsequent `Get("0.0")` fails with an index-out-of-range error
instead of returning `1`. -/
theorem c1_set_get_lost_update :
    JSON.Set { arrs := [[GoVal.arrRef 1], []], objs := [] }
        { data := GoVal.arrRef 0, err := none } "0.0" (GoVal.goInt 1) =
      some ({ arrs := [[GoVal.arrRef 1], [], [GoVal.goInt 1]], objs := [] },
            { data := GoVal.arrRef 0, err := none }) ∧
    (JSON.Get { arrs := [[GoVal.arrRef 1], [], [GoVal.goInt 1]], objs := [] }
        { data := GoVal.arrRef 0, err := none } "0.0").err =
      some "array index out of range: 0" :=
  ⟨by decide, by decide⟩

/-- Setting a too-large first index on a Null root: the root coercion
allocates an (idx+1)-slot array before the recursion rejects the index. -/
theorem set_null_root_big_index (n : Int) (_hn : 0 ≤ n) (hbound : 10000 ≤ n)
    (s : String) (hne : s ≠ "") (hs : splitDot s = [s]) (ha : goAtoi s = some n)
    (v : GoVal) :
    JSON.Set { arrs := [], objs := [] } { data := GoVal.null, err := none } s v =
      some ({ arrs := [List.replicate (n.toNat + 1) GoVal.null], objs := [] },
            { data := GoVal.arrRef 0,
              err := some ("invalid array index: " ++ intToString n) }) := by
  have hb1 : ¬ (n + 1 < 0) := by omega
  have hb2 : (n < 0 ∨ 10000 ≤ n) := Or.inr hbound
  have hb3 : (n + 1).toNat = n.toNat + 1 := by omega
  simp [JSON.Set, setByPath, hs, hne, ha, hb1, hb2, hb3, setByPathRecursive,
    allocArr]

/-- C3: `Set` on a Null root with an out-of-bound first index segment
violates the claim.  With segment `-5` the root coercion executes
`make([]interface{}, -4)`, a runtime panic (modeled as `none`) instead
of an `InvalidIndex` error; with segment `10000` the coercion allocates
a 10001-slot backing array before `setByPathRecursive` rejects the
index, so storage is allocated for the rejected index. -/
theorem c3_null_root_index_panic_and_allocation :
    JSON.Set { arrs := [], objs := [] } { data := GoVal.null, err := none }
        "-5" (GoVal.goInt 1) = none ∧
    JSON.Set { arrs := [], objs := [] } { data := GoVal.null, err := none }
        "10000" (GoVal.goInt 1) =
      some ({ arrs := [List.replicate 10001 GoVal.null], objs := [] },
            { data := GoVal.arrRef 0,
              err := some "invalid array index: 10000" }) := by
  constructor
  · decide
  · exact set_null_root_big_index 10000 (by decide) (by decide) "10000"
      (by decide) (by decide) (by decide) (GoVal.goInt 1)

/-- C4: the Flatten/Unflatten round trip fails on the code for the
array-rooted value `[1]`.  `Flatten` yields the entry `"0" -> 1`, but
`Unflatten` replays entries through `Set` on a fresh `Object()` root and
discards every returned error; the integer segment `"0"` cannot be set
on an object container, so the entry is dropped and the result is the
empty object, not structurally equal to `[1]`. -/
theorem c4_flatten_unflatten_not_roundtrip :
    Flatten 2 { arrs := [[GoVal.goInt 1]], objs := [] }
        { data := GoVal.arrRef 0, err := none } = some [("0", GoVal.goInt 1)] ∧
    Unflatten { arrs := [[GoVal.goInt 1]], objs := [] } [("0", GoVal.goInt 1)] =
      some ({ arrs := [[GoVal.goInt 1]], objs := [[]] },
            { data := GoVal.objRef 0, err := none }) ∧
    toTree 2 { arrs := [[GoVal.goInt 1]], objs := [[]] } (GoVal.objRef 0) =
      some (JTree.jobj []) ∧
    toTree 2 { arrs := [[GoVal.goInt 1]], objs := [] } (GoVal.arrRef 0) =
      some (JTree.jarr [JTree.jint 1]) ∧
    JTree.jobj [] ≠ JTree.jarr [JTree.jint 1] := by
  refine ⟨?_, by decide, ?_, ?_, fun hcontra => JTree.noConfusion hcontra⟩
  · simp [Flatten, flattenRec, flattenElems, joinPath, arrCell, mapSet,
      natToString, natDigitsAux, digitChar]
  · simp [toTree, toTreePairs, objCell, sortPairsByKey]
  · simp [toTree, toTreeElems, arrCell]

/-- C5 counterexample: `Length` on a string returns the Go `len`
(UTF-8 byte count), not the character count: the one-character string
"é" has `Length` 2. -/
theorem c5_length_bytes_counterexample :
    JSON.Length { arrs := [], objs := [] }
        { data := GoVal.goStr "é", err := none } = 2 ∧
    "é".data.length = 1 :=
  ⟨by decide, by decide⟩

/-- C5 amended: for every non-errored value, `Length` is the element
count for an array, the key count for an object, the UTF-8 byte count
(Go `len`) for a string, and 0 for every other shape. -/
theorem c5_length_amended (h : Heap) (j : JSON) (hj : j.err = none) :
    (∀ a, j.data = GoVal.arrRef a → JSON.Length h j = (arrCell h a).length) ∧
    (∀ o, j.data = GoVal.objRef o → JSON.Length h j = (objCell h o).length) ∧
    (∀ s, j.data = GoVal.goStr s → JSON.Length h j = s.utf8ByteSize) ∧
    (∀ n, j.data = GoVal.goInt n → JSON.Length h j = 0) ∧
    (∀ n, j.data = GoVal.goInt64 n → JSON.Length h j = 0) ∧
    (∀ q, j.data = GoVal.goFloat q → JSON.Length h j = 0) ∧
    (∀ b, j.data = GoVal.goBool b → JSON.Length h j = 0) ∧
    (j.data = GoVal.null → JSON.Length h j = 0) := by
  refine ⟨fun a ha => ?_, fun o ho => ?_, fun s hs => ?_, fun n hn => ?_,
    fun n hn => ?_, fun q hq => ?_, fun b hb => ?_, fun hn => ?_⟩ <;>
    simp [JSON.Length, hj, *]

/-- C5 amended, witness: the byte length of a concrete string. -/
theorem c5_length_amended_witness :
    JSON.Length { arrs := [], objs := [] }
        { data := GoVal.goStr "héllo", err := none } = 6 := by
  have h := (c5_length_amended { arrs := [], objs := [] }
    { data := GoVal.goStr "héllo", err := none } rfl).2.2.1 "héllo" rfl
  rw [h]; decide

/-- C6 counterexample: the claim says shape mismatches return the zero
value, but the `String` accessor on a Bool receiver goes through the
default formatter and returns "true", not "". -/
theorem c6_asstring_formats_counterexample :
    JSON.StringConv { data := GoVal.goBool true, err := none } = "true" ∧
    "true" ≠ "" :=
  ⟨by decide, by decide⟩

/-- C6 amended: the coercion accessors are total (never panic); all five
return zero values on an error-state receiver; native-typed payloads pass
through; `Int`/`Int64` parse strings in base 10 and `Float64` via
`ParseFloat`, yielding 0 on parse failure; numeric shape mismatches
(including `int64` under `Int`/`Float64`) yield 0 — but `String` does
not return "" on mismatch: it formats non-string, non-null payloads with
the `%v` formatter; and `Bool` follows neither `ParseBool` nor a uniform
zero-value rule: it passes native bools through, compares a string
against the literal "true" (so "TRUE" and "1" coerce to false), coerces
`int` and `float64` to whether the number is nonzero (so `Bool` on the
number 1 is true), and yields false for every remaining shape
(`int64`, null, arrays, objects). -/
theorem c6_accessor_contracts :
    (∀ e d, JSON.StringConv { data := d, err := some e } = "" ∧
      JSON.IntConv { data := d, err := some e } = 0 ∧
      JSON.Int64Conv { data := d, err := some e } = 0 ∧
      JSON.Float64Conv { data := d, err := some e } = 0 ∧
      JSON.BoolConv { data := d, err := some e } = false) ∧
    (∀ s, JSON.StringConv { data := GoVal.goStr s, err := none } = s) ∧
    (JSON.StringConv { data := GoVal.null, err := none } = "") ∧
    (∀ b, JSON.StringConv { data := GoVal.goBool b, err := none } =
      if b then "true" else "false") ∧
    (∀ n, JSON.StringConv { data := GoVal.goInt n, err := none } = intToString n) ∧
    (∀ n, JSON.IntConv { data := GoVal.goInt n, err := none } = n) ∧
    (∀ q, JSON.IntConv { data := GoVal.goFloat q, err := none } = ratTruncToInt q) ∧
    (∀ s, JSON.IntConv { data := GoVal.goStr s, err := none } = (goAtoi s).getD 0) ∧
    (∀ b, JSON.IntConv { data := GoVal.goBool b, err := none } = 0) ∧
    (∀ n, JSON.IntConv { data := GoVal.goInt64 n, err := none } = 0) ∧
    (∀ a, JSON.IntConv { data := GoVal.arrRef a, err := none } = 0) ∧
    (∀ o, JSON.IntConv { data := GoVal.objRef o, err := none } = 0) ∧
    (JSON.IntConv { data := GoVal.null, err := none } = 0) ∧
    (∀ n, JSON.Int64Conv { data := GoVal.goInt64 n, err := none } = n) ∧
    (∀ n, JSON.Int64Conv { data := GoVal.goInt n, err := none } = n) ∧
    (∀ q, JSON.Int64Conv { data := GoVal.goFloat q, err := none } = ratTruncToInt q) ∧
    (∀ s, JSON.Int64Conv { data := GoVal.goStr s, err := none } = (goAtoi s).getD 0) ∧
    (∀ q, JSON.Float64Conv { data := GoVal.goFloat q, err := none } = q) ∧
    (∀ n, JSON.Float64Conv { data := GoVal.goInt n, err := none } = (n : Rat)) ∧
    (∀ s, JSON.Float64Conv { data := GoVal.goStr s, err := none } = (goParseFloat s).getD 0) ∧
    (∀ n, JSON.Float64Conv { data := GoVal.goInt64 n, err := none } = 0) ∧
    (∀ b, JSON.BoolConv { data := GoVal.goBool b, err := none } = b) ∧
    (∀ s, JSON.BoolConv { data := GoVal.goStr s, err := none } =
      if s = "true" then true else false) ∧
    (∀ n, JSON.BoolConv { data := GoVal.goInt n, err := none } =
      if n = 0 then false else true) ∧
    (∀ q, JSON.BoolConv { data := GoVal.goFloat q, err := none } =
      if q = 0 then false else true) ∧
    (∀ n, JSON.BoolConv { data := GoVal.goInt64 n, err := none } = false) ∧
    (∀ a, JSON.BoolConv { data := GoVal.arrRef a, err := none } = false) ∧
    (∀ o, JSON.BoolConv { data := GoVal.objRef o, err := none } = false) ∧
    (JSON.BoolConv { data := GoVal.null, err := none } = false) := by
  refine ⟨fun e d => ⟨rfl, rfl, rfl, rfl, rfl⟩, fun s => rfl, rfl, fun b => ?_,
    fun n => rfl, fun n => rfl, fun q => rfl, fun s => rfl, fun b => rfl,
    fun n => rfl, fun a => rfl, fun o => rfl, rfl, fun n => rfl, fun n => rfl,
    fun q => rfl, fun s => rfl, fun q => rfl, fun n => rfl, fun s => rfl,
    fun n => rfl, fun b => ?_, fun s => ?_, fun n => ?_, fun q => ?_,
    fun n => rfl, fun a => rfl, fun o => rfl, rfl⟩
  · cases b <;> rfl
  · cases b <;> rfl
  · simp [JSON.BoolConv]
  · simp [JSON.BoolConv]
  · simp [JSON.BoolConv]

/-- C2: the sticky error short-circuits every chained operation: on a
receiver whose error slot is non-nil, each of Get, Set, Delete, Index,
Append, Prepend, Remove, Merge, DeepMerge, Map, Filter and ForEach
returns the receiver itself (error slot still non-nil) without touching
the heap or the payload, so an error-free result is impossible. -/
theorem c2_sticky_error_short_circuits (h : Heap) (j : JSON) (e : String)
    (hj : j.err = some e) :
    (∀ p, JSON.Get h j p = j) ∧
    (∀ p v, JSON.Set h j p v = some (h, j)) ∧
    (∀ p, JSON.Delete h j p = (h, j)) ∧
    (∀ i, JSON.Index h j i = j) ∧
    (∀ vs, JSON.Append h j vs = (h, j)) ∧
    (∀ vs, JSON.Prepend h j vs = (h, j)) ∧
    (∀ i, JSON.Remove h j i = (h, j)) ∧
    (∀ o, JSON.Merge h j o = (h, j)) ∧
    (∀ fuel o, JSON.DeepMerge fuel h j o = some (h, j)) ∧
    (∀ fn, JSON.Map h j fn = (h, j)) ∧
    (∀ fn, JSON.Filter h j fn = (h, j)) ∧
    (∀ fn, JSON.ForEach h j fn = j) := by
  refine ⟨fun p => ?_, fun p v => ?_, fun p => ?_, fun i => ?_, fun vs => ?_,
    fun vs => ?_, fun i => ?_, fun o => ?_, fun fuel o => ?_, fun fn => ?_,
    fun fn => ?_, fun fn => ?_⟩ <;>
    simp [JSON.Get, JSON.Set, JSON.Delete, JSON.Index, JSON.Append,
      JSON.Prepend, JSON.Remove, JSON.Merge, JSON.DeepMerge, JSON.Map,
      JSON.Filter, JSON.ForEach, hj]

/-- C2, witness: a concrete errored value is returned unchanged by Get. -/
theorem c2_sticky_error_witness :
    JSON.Get { arrs := [], objs := [] }
        { data := GoVal.null, err := some "boom" } "x" =
      { data := GoVal.null, err := some "boom" } :=
  (c2_sticky_error_short_circuits { arrs := [], objs := [] }
    { data := GoVal.null, err := some "boom" } "boom" rfl).1 "x"

/-- C7: `Append`/`Prepend` on a non-errored, non-array receiver return
an error value that preserves the receiver payload, with the heap (and
hence the receiver payload) unmutated; on an array receiver they build a
header holding the old elements with the new values appended at the end
(`Append`) or prepended at the beginning (`Prepend`), in a fresh cell,
leaving every existing cell unchanged. -/
theorem c7_append_prepend_contract (h : Heap) (j : JSON) (hj : j.err = none)
    (vs : List GoVal) :
    ((∀ a, j.data ≠ GoVal.arrRef a) →
      JSON.Append h j vs = (h, { data := j.data, err := some "not an array" }) ∧
      JSON.Prepend h j vs = (h, { data := j.data, err := some "not an array" })) ∧
    (∀ a, j.data = GoVal.arrRef a →
      JSON.Append h j vs =
        ({ arrs := h.arrs ++ [arrCell h a ++ vs], objs := h.objs },
         { data := GoVal.arrRef h.arrs.length, err := none }) ∧
      arrCell (JSON.Append h j vs).1 h.arrs.length = arrCell h a ++ vs ∧
      (∀ c, c < h.arrs.length →
        (JSON.Append h j vs).1.arrs[c]? = h.arrs[c]?)) ∧
    (∀ a, j.data = GoVal.arrRef a →
      JSON.Prepend h j vs =
        ({ arrs := h.arrs ++ [vs ++ arrCell h a], objs := h.objs },
         { data := GoVal.arrRef h.arrs.length, err := none }) ∧
      arrCell (JSON.Prepend h j vs).1 h.arrs.length = vs ++ arrCell h a ∧
      (∀ c, c < h.arrs.length →
        (JSON.Prepend h j vs).1.arrs[c]? = h.arrs[c]?)) := by
  refine ⟨fun hna => ?_, fun a ha => ⟨?_, ?_, fun c hc => ?_⟩,
    fun a ha => ⟨?_, ?_, fun c hc => ?_⟩⟩
  · rcases j with ⟨d, je⟩
    cases hj
    cases d <;> simp_all [JSON.Append, JSON.Prepend]
  · simp [JSON.Append, hj, ha, allocArr]
  · simp [JSON.Append, hj, ha, allocArr, arrCell, List.getD,
      List.getElem?_concat_length]
  · simp only [JSON.Append, hj, ha, allocArr]
    exact List.getElem?_append_left hc
  · simp [JSON.Prepend, hj, ha, allocArr]
  · simp [JSON.Prepend, hj, ha, allocArr, arrCell, List.getD,
      List.getElem?_concat_length]
  · simp only [JSON.Prepend, hj, ha, allocArr]
    exact List.getElem?_append_left hc

/-- C7, witness: appending to a concrete one-element array. -/
theorem c7_append_prepend_witness :
    JSON.Append { arrs := [[GoVal.goInt 1]], objs := [] }
        { data := GoVal.arrRef 0, err := none } [GoVal.goInt 2] =
      ({ arrs := [[GoVal.goInt 1], [GoVal.goInt 1, GoVal.goInt 2]], objs := [] },
       { data := GoVal.arrRef 1, err := none }) := by
  rw [((c7_append_prepend_contract { arrs := [[GoVal.goInt 1]], objs := [] }
    { data := GoVal.arrRef 0, err := none } rfl [GoVal.goInt 2]).2.1 0 rfl).1]
  decide

/-- C10: when the receiver is error-free but the argument carries an
error, both `Merge` and `DeepMerge` return a value holding the
argument's error with the receiver's payload, and the heap is untouched. -/
theorem c10_merge_argument_error (h : Heap) (a b : JSON) (ha : a.err = none)
    (e : String) (hb : b.err = some e) (fuel : Nat) :
    JSON.Merge h a b = (h, { data := a.data, err := some e }) ∧
    JSON.DeepMerge fuel h a b = some (h, { data := a.data, err := some e }) := by
  constructor <;> simp [JSON.Merge, JSON.DeepMerge, ha, hb]

/-- C10, witness: a concrete errored argument propagates through Merge. -/
theorem c10_merge_argument_error_witness :
    JSON.Merge { arrs := [], objs := [[]] }
        { data := GoVal.objRef 0, err := none }
        { data := GoVal.null, err := some "bad" } =
      ({ arrs := [], objs := [[]] },
       { data := GoVal.objRef 0, err := some "bad" }) :=
  (c10_merge_argument_error { arrs := [], objs := [[]] }
    { data := GoVal.objRef 0, err := none }
    { data := GoVal.null, err := some "bad" } rfl "bad" rfl 1).1

/-- Unfolding lemma for Go map lookup on a nonempty cell. -/
theorem mapGet_cons (kv : String × GoVal) (rest : List (String × GoVal))
    (k : String) :
    mapGet (kv :: rest) k = if kv.1 = k then some kv.2 else mapGet rest k := by
  by_cases hk : kv.1 = k <;> simp [mapGet, List.find?, hk]

/-- Lookup after a single Go map assignment. -/
theorem mapGet_mapSet (cell : List (String × GoVal)) (k : String) (v : GoVal)
    (k' : String) :
    mapGet (mapSet cell k v) k' = if k' = k then some v else mapGet cell k' := by
  induction cell with
  | nil =>
    by_cases hk : k' = k
    · subst hk; simp [mapSet, mapGet_cons]
    · have hk2 : ¬ (k = k') := fun hcon => hk hcon.symm
      simp [mapSet, mapGet_cons, hk, hk2, mapGet]
  | cons kv rest ih =>
    by_cases hkv : kv.1 = k
    · rw [show mapSet (kv :: rest) k v = (k, v) :: rest by simp [mapSet, hkv]]
      by_cases hk : k' = k
      · subst hk; simp [mapGet_cons]
      · have hk2 : ¬ (k = k') := fun hcon => hk hcon.symm
        have hk3 : ¬ (kv.1 = k') := by rw [hkv]; exact hk2
        simp [mapGet_cons, hk, hk2, hk3]
    · rw [show mapSet (kv :: rest) k v = kv :: mapSet rest k v by
        simp [mapSet, hkv]]
      rw [mapGet_cons, mapGet_cons, ih]
      by_cases h1 : kv.1 = k' <;> by_cases h2 : k' = k <;> simp [h1, h2] <;>
        first
          | exact absurd (h1.trans h2) hkv
          | exact fun hcon => absurd (hcon.trans h2.symm) h1

/-- A key outside the key list of a cell has no binding. -/
theorem mapGet_eq_none (cell : List (String × GoVal)) (k : String)
    (hk : k ∉ cell.map Prod.fst) : mapGet cell k = none := by
  induction cell with
  | nil => rfl
  | cons kv rest ih =>
    simp only [List.map_cons, List.mem_cons] at hk
    push_neg at hk
    rw [mapGet_cons]
    simp [show ¬ (kv.1 = k) from fun hcon => hk.1 hcon.symm, ih hk.2]

/-- Replaying a duplicate-free list of entries over an accumulator with
Go map writes: an entry of the list wins, otherwise the accumulator
binding remains. -/
theorem mapGet_foldl_mapSet (pairs : List (String × GoVal))
    (hnd : (pairs.map Prod.fst).Nodup) (acc : List (String × GoVal))
    (k : String) :
    mapGet (pairs.foldl (fun a kv => mapSet a kv.1 kv.2) acc) k =
      Option.or (mapGet pairs k) (mapGet acc k) := by
  induction pairs generalizing acc with
  | nil =>
    simp only [List.foldl_nil]
    rw [show mapGet ([] : List (String × GoVal)) k = none from rfl]
    cases hx : mapGet acc k <;> rfl
  | cons kv rest ih =>
    simp only [List.map_cons, List.nodup_cons] at hnd
    rw [List.foldl_cons, ih hnd.2, mapGet_mapSet, mapGet_cons]
    by_cases hk : kv.1 = k
    · have hk2 : k = kv.1 := hk.symm
      have hrest : mapGet rest k = none := by
        refine mapGet_eq_none rest k (fun hmem => hnd.1 ?_)
        rw [hk]; exact hmem
      rw [if_pos hk, if_pos hk2, hrest]
      cases hx : mapGet acc k <;> rfl
    · have hk2 : ¬ (k = kv.1) := fun hcon => hk hcon.symm
      rw [if_neg hk, if_neg hk2]

/-- C8: `Merge` on non-errored values: unless both sides are objects the
result is an error value carrying the receiver payload (`TypeMismatch`
kind, message "both values must be objects") and the heap is untouched;
when both are objects the result is a freshly allocated object whose
binding for every key is the argument's value when the argument has the
key and the receiver's value otherwise (argument replaces receiver
wholesale on conflicts), with all preexisting cells unchanged. -/
theorem c8_merge_contract (h : Heap) (a b : JSON) (ha : a.err = none)
    (hb : b.err = none) :
    ((∀ oa ob, a.data = GoVal.objRef oa → b.data = GoVal.objRef ob → False) →
      JSON.Merge h a b =
        (h, { data := a.data, err := some "both values must be objects" })) ∧
    (∀ oa ob, a.data = GoVal.objRef oa → b.data = GoVal.objRef ob →
      ((objCell h oa).map Prod.fst).Nodup →
      ((objCell h ob).map Prod.fst).Nodup →
      (JSON.Merge h a b).2 = { data := GoVal.objRef h.objs.length, err := none } ∧
      (JSON.Merge h a b).1.arrs = h.arrs ∧
      (∀ c, c < h.objs.length →
        (JSON.Merge h a b).1.objs[c]? = h.objs[c]?) ∧
      (∀ k, mapGet (objCell (JSON.Merge h a b).1 h.objs.length) k =
        Option.or (mapGet (objCell h ob) k) (mapGet (objCell h oa) k))) := by
  constructor
  · intro hno
    rcases a with ⟨da, ea⟩
    rcases b with ⟨db, eb⟩
    cases ha
    cases hb
    cases da <;> cases db <;>
      first
        | exact (hno _ _ rfl rfl).elim
        | simp [JSON.Merge]
  · intro oa ob hoa hob hnda hndb
    refine ⟨?_, ?_, fun c hc => ?_, fun k => ?_⟩
    · simp [JSON.Merge, ha, hb, hoa, hob, allocObj]
    · simp [JSON.Merge, ha, hb, hoa, hob, allocObj]
    · simp only [JSON.Merge, ha, hb, hoa, hob, allocObj]
      exact List.getElem?_append_left hc
    · have hcell : objCell (JSON.Merge h a b).1 h.objs.length =
          (objCell h ob).foldl (fun acc kv => mapSet acc kv.1 kv.2)
            ((objCell h oa).foldl (fun acc kv => mapSet acc kv.1 kv.2) []) := by
        simp [JSON.Merge, ha, hb, hoa, hob, allocObj, objCell, List.getD,
          List.getElem?_concat_length]
      rw [hcell, mapGet_foldl_mapSet _ hndb, mapGet_foldl_mapSet _ hnda]
      cases mapGet (objCell h ob) k <;> cases mapGet (objCell h oa) k <;>
        simp [mapGet, List.find?, Option.or]

/-- C8, witness: merging two concrete objects, the argument wins on the
conflicting key. -/
theorem c8_merge_contract_witness :
    mapGet (objCell (JSON.Merge
      { arrs := [], objs := [[("x", GoVal.goInt 1), ("y", GoVal.goInt 2)],
                             [("y", GoVal.goInt 9)]] }
      { data := GoVal.objRef 0, err := none }
      { data := GoVal.objRef 1, err := none }).1 2) "y" = some (GoVal.goInt 9) := by
  have hlook := ((c8_merge_contract
    { arrs := [], objs := [[("x", GoVal.goInt 1), ("y", GoVal.goInt 2)],
                           [("y", GoVal.goInt 9)]] }
    { data := GoVal.objRef 0, err := none }
    { data := GoVal.objRef 1, err := none } rfl rfl).2 0 1 rfl rfl
    (by decide) (by decide)).2.2.2 "y"
  rw [show (2 : Nat) = ({ arrs := [], objs := [[("x", GoVal.goInt 1),
    ("y", GoVal.goInt 2)], [("y", GoVal.goInt 9)]] } : Heap).objs.length from rfl,
    hlook]
  decide

/-! ## Reachability over the heap (for the Clone independence claim) -/

/-- A heap cell address. -/
inductive Addr where
  | arrA (a : Nat) : Addr
  | objA (o : Nat) : Addr
deriving Repr, DecidableEq

/-- The address lies in the allocated region of the heap. -/
def inBounds (h : Heap) : Addr → Prop
  | Addr.arrA a => a < h.arrs.length
  | Addr.objA o => o < h.objs.length

/-- The two heaps hold the same cell (or both lack it) at an address. -/
def cellAgree (h1 h2 : Heap) : Addr → Prop
  | Addr.arrA a => h1.arrs[a]? = h2.arrs[a]?
  | Addr.objA o => h1.objs[o]? = h2.objs[o]?

/-- The value reaches the cell at the given address by following
references through the heap (scalars reach nothing). -/
inductive Reach (h : Heap) : GoVal → Addr → Prop where
  | arrSelf (a : Nat) : Reach h (GoVal.arrRef a) (Addr.arrA a)
  | objSelf (o : Nat) : Reach h (GoVal.objRef o) (Addr.objA o)
  | arrStep {a : Nat} {w : GoVal} {c : Addr} :
      w ∈ arrCell h a → Reach h w c → Reach h (GoVal.arrRef a) c
  | objStep {o : Nat} {k : String} {w : GoVal} {c : Addr} :
      (k, w) ∈ objCell h o → Reach h w c → Reach h (GoVal.objRef o) c

theorem writeArr_objs (h : Heap) (t : Nat) (cell : List GoVal) :
    (writeArr h t cell).objs = h.objs := rfl

theorem writeObj_arrs (h : Heap) (t : Nat) (cell : List (String × GoVal)) :
    (writeObj h t cell).arrs = h.arrs := rfl

theorem writeArr_arrs_length (h : Heap) (t : Nat) (cell : List GoVal) :
    (writeArr h t cell).arrs.length = h.arrs.length := by
  simp [writeArr]

theorem writeObj_objs_length (h : Heap) (t : Nat) (cell : List (String × GoVal)) :
    (writeObj h t cell).objs.length = h.objs.length := by
  simp [writeObj]

theorem writeArr_get?_ne (h : Heap) (t : Nat) (cell : List GoVal) (a : Nat)
    (hne : t ≠ a) : (writeArr h t cell).arrs[a]? = h.arrs[a]? := by
  simp [writeArr, List.getElem?_set_ne hne]

theorem writeObj_get?_ne (h : Heap) (t : Nat) (cell : List (String × GoVal))
    (o : Nat) (hne : t ≠ o) : (writeObj h t cell).objs[o]? = h.objs[o]? := by
  simp [writeObj, List.getElem?_set_ne hne]

theorem arrCell_writeArr (h : Heap) (t : Nat) (cell : List GoVal) (a : Nat) :
    arrCell (writeArr h t cell) a =
      if t = a ∧ t < h.arrs.length then cell else arrCell h a := by
  by_cases heq : t = a
  · subst heq
    by_cases hlt : t < h.arrs.length
    · simp [arrCell, writeArr, List.getD, List.getElem?_set_self hlt, hlt]
    · have : h.arrs.set t cell = h.arrs := List.set_eq_of_length_le (by omega)
      simp [arrCell, writeArr, this, hlt]
  · simp [arrCell, writeArr, List.getD, List.getElem?_set_ne heq, heq]

theorem objCell_writeObj (h : Heap) (t : Nat) (cell : List (String × GoVal))
    (o : Nat) :
    objCell (writeObj h t cell) o =
      if t = o ∧ t < h.objs.length then cell else objCell h o := by
  by_cases heq : t = o
  · subst heq
    by_cases hlt : t < h.objs.length
    · simp [objCell, writeObj, List.getD, List.getElem?_set_self hlt, hlt]
    · have : h.objs.set t cell = h.objs := List.set_eq_of_length_le (by omega)
      simp [objCell, writeObj, this, hlt]
  · simp [objCell, writeObj, List.getD, List.getElem?_set_ne heq, heq]

theorem arrCell_writeObj (h : Heap) (t : Nat) (cell : List (String × GoVal))
    (a : Nat) : arrCell (writeObj h t cell) a = arrCell h a := rfl

theorem objCell_writeArr (h : Heap) (t : Nat) (cell : List GoVal) (o : Nat) :
    objCell (writeArr h t cell) o = objCell h o := rfl

theorem allocArr_objs (h : Heap) (cell : List GoVal) :
    (allocArr h cell).1.objs = h.objs := rfl

theorem allocObj_arrs (h : Heap) (cell : List (String × GoVal)) :
    (allocObj h cell).1.arrs = h.arrs := rfl

theorem allocArr_get?_lt (h : Heap) (cell : List GoVal) (a : Nat)
    (ha : a < h.arrs.length) : (allocArr h cell).1.arrs[a]? = h.arrs[a]? := by
  simp only [allocArr]
  exact List.getElem?_append_left ha

theorem allocObj_get?_lt (h : Heap) (cell : List (String × GoVal)) (o : Nat)
    (ho : o < h.objs.length) : (allocObj h cell).1.objs[o]? = h.objs[o]? := by
  simp only [allocObj]
  exact List.getElem?_append_left ho

theorem arrCell_allocArr (h : Heap) (cell : List GoVal) (a : Nat) :
    arrCell (allocArr h cell).1 a =
      if a = h.arrs.length then cell else arrCell h a := by
  by_cases heq : a = h.arrs.length
  · subst heq
    simp [arrCell, allocArr, List.getD, List.getElem?_concat_length]
  · rcases Nat.lt_or_ge a h.arrs.length with hlt | hge
    · simp [arrCell, allocArr, List.getD, List.getElem?_append_left hlt, heq]
    · have h1 : h.arrs[a]? = none := by
        rw [List.getElem?_eq_none_iff]; omega
      have h2 : (h.arrs ++ [cell])[a]? = none := by
        rw [List.getElem?_eq_none_iff]; simp; omega
      simp [arrCell, allocArr, List.getD, h1, h2, heq]

theorem objCell_allocObj (h : Heap) (cell : List (String × GoVal)) (o : Nat) :
    objCell (allocObj h cell).1 o =
      if o = h.objs.length then cell else objCell h o := by
  by_cases heq : o = h.objs.length
  · subst heq
    simp [objCell, allocObj, List.getD, List.getElem?_concat_length]
  · rcases Nat.lt_or_ge o h.objs.length with hlt | hge
    · simp [objCell, allocObj, List.getD, List.getElem?_append_left hlt, heq]
    · have h1 : h.objs[o]? = none := by
        rw [List.getElem?_eq_none_iff]; omega
      have h2 : (h.objs ++ [cell])[o]? = none := by
        rw [List.getElem?_eq_none_iff]; simp; omega
      simp [objCell, allocObj, List.getD, h1, h2, heq]

theorem objCell_allocArr (h : Heap) (cell : List GoVal) (o : Nat) :
    objCell (allocArr h cell).1 o = objCell h o := rfl

theorem arrCell_allocObj (h : Heap) (cell : List (String × GoVal)) (a : Nat) :
    arrCell (allocObj h cell).1 a = arrCell h a := rfl

/-- Cell agreement at an array address yields equal cell reads. -/
theorem arrCell_eq_of_agree {h0 h1 : Heap} {a : Nat}
    (hag : cellAgree h0 h1 (Addr.arrA a)) : arrCell h1 a = arrCell h0 a := by
  simp only [cellAgree] at hag
  simp [arrCell, List.getD_eq_getElem?_getD, hag]

/-- Cell agreement at a map address yields equal cell reads. -/
theorem objCell_eq_of_agree {h0 h1 : Heap} {o : Nat}
    (hag : cellAgree h0 h1 (Addr.objA o)) : objCell h1 o = objCell h0 o := by
  simp only [cellAgree] at hag
  simp [objCell, List.getD_eq_getElem?_getD, hag]

/-- Reachability in a heap with one slice cell overwritten decomposes
into reachability in the old heap, possibly through the new contents. -/
theorem reach_writeArr {h : Heap} {t : Nat} {cell : List GoVal} {u : GoVal}
    {c : Addr} (hr : Reach (writeArr h t cell) u c) :
    Reach h u c ∨ ∃ w ∈ cell, Reach h w c := by
  induction hr with
  | arrSelf a => exact Or.inl (Reach.arrSelf a)
  | objSelf o => exact Or.inl (Reach.objSelf o)
  | @arrStep a w c2 hmem hsub ih =>
    rw [arrCell_writeArr] at hmem
    by_cases hcase : t = a ∧ t < h.arrs.length
    · rw [if_pos hcase] at hmem
      rcases ih with h1 | ⟨w', hw', hr'⟩
      · exact Or.inr ⟨w, hmem, h1⟩
      · exact Or.inr ⟨w', hw', hr'⟩
    · rw [if_neg hcase] at hmem
      rcases ih with h1 | ⟨w', hw', hr'⟩
      · exact Or.inl (Reach.arrStep hmem h1)
      · exact Or.inr ⟨w', hw', hr'⟩
  | @objStep o k w c2 hmem hsub ih =>
    rw [objCell_writeArr] at hmem
    rcases ih with h1 | ⟨w', hw', hr'⟩
    · exact Or.inl (Reach.objStep hmem h1)
    · exact Or.inr ⟨w', hw', hr'⟩

/-- Reachability after overwriting one map cell. -/
theorem reach_writeObj {h : Heap} {t : Nat} {cell : List (String × GoVal)}
    {u : GoVal} {c : Addr} (hr : Reach (writeObj h t cell) u c) :
    Reach h u c ∨ ∃ kw ∈ cell, Reach h kw.2 c := by
  induction hr with
  | arrSelf a => exact Or.inl (Reach.arrSelf a)
  | objSelf o => exact Or.inl (Reach.objSelf o)
  | @arrStep a w c2 hmem hsub ih =>
    rw [show arrCell (writeObj h t cell) a = arrCell h a from rfl] at hmem
    rcases ih with h1 | ⟨w', hw', hr'⟩
    · exact Or.inl (Reach.arrStep hmem h1)
    · exact Or.inr ⟨w', hw', hr'⟩
  | @objStep o k w c2 hmem hsub ih =>
    rw [objCell_writeObj] at hmem
    by_cases hcase : t = o ∧ t < h.objs.length
    · rw [if_pos hcase] at hmem
      rcases ih with h1 | ⟨w', hw', hr'⟩
      · exact Or.inr ⟨(k, w), hmem, h1⟩
      · exact Or.inr ⟨w', hw', hr'⟩
    · rw [if_neg hcase] at hmem
      rcases ih with h1 | ⟨w', hw', hr'⟩
      · exact Or.inl (Reach.objStep hmem h1)
      · exact Or.inr ⟨w', hw', hr'⟩

/-- Reachability after allocating a fresh slice cell. -/
theorem reach_allocArr {h : Heap} {cell : List GoVal} {u : GoVal} {c : Addr}
    (hr : Reach (allocArr h cell).1 u c) :
    Reach h u c ∨ c = Addr.arrA h.arrs.length ∨ ∃ w ∈ cell, Reach h w c := by
  induction hr with
  | arrSelf a => exact Or.inl (Reach.arrSelf a)
  | objSelf o => exact Or.inl (Reach.objSelf o)
  | @arrStep a w c2 hmem hsub ih =>
    rw [arrCell_allocArr] at hmem
    by_cases hcase : a = h.arrs.length
    · rw [if_pos hcase] at hmem
      rcases ih with h1 | h1 | ⟨w', hw', hr'⟩
      · exact Or.inr (Or.inr ⟨w, hmem, h1⟩)
      · exact Or.inr (Or.inl h1)
      · exact Or.inr (Or.inr ⟨w', hw', hr'⟩)
    · rw [if_neg hcase] at hmem
      rcases ih with h1 | h1 | ⟨w', hw', hr'⟩
      · exact Or.inl (Reach.arrStep hmem h1)
      · exact Or.inr (Or.inl h1)
      · exact Or.inr (Or.inr ⟨w', hw', hr'⟩)
  | @objStep o k w c2 hmem hsub ih =>
    rw [show objCell (allocArr h cell).1 o = objCell h o from rfl] at hmem
    rcases ih with h1 | h1 | ⟨w', hw', hr'⟩
    · exact Or.inl (Reach.objStep hmem h1)
    · exact Or.inr (Or.inl h1)
    · exact Or.inr (Or.inr ⟨w', hw', hr'⟩)

/-- Reachability after allocating a fresh map cell. -/
theorem reach_allocObj {h : Heap} {cell : List (String × GoVal)} {u : GoVal}
    {c : Addr} (hr : Reach (allocObj h cell).1 u c) :
    Reach h u c ∨ c = Addr.objA h.objs.length ∨ ∃ kw ∈ cell, Reach h kw.2 c := by
  induction hr with
  | arrSelf a => exact Or.inl (Reach.arrSelf a)
  | objSelf o => exact Or.inl (Reach.objSelf o)
  | @arrStep a w c2 hmem hsub ih =>
    rw [show arrCell (allocObj h cell).1 a = arrCell h a from rfl] at hmem
    rcases ih with h1 | h1 | ⟨w', hw', hr'⟩
    · exact Or.inl (Reach.arrStep hmem h1)
    · exact Or.inr (Or.inl h1)
    · exact Or.inr (Or.inr ⟨w', hw', hr'⟩)
  | @objStep o k w c2 hmem hsub ih =>
    rw [objCell_allocObj] at hmem
    by_cases hcase : o = h.objs.length
    · rw [if_pos hcase] at hmem
      rcases ih with h1 | h1 | ⟨w', hw', hr'⟩
      · exact Or.inr (Or.inr ⟨(k, w), hmem, h1⟩)
      · exact Or.inr (Or.inl h1)
      · exact Or.inr (Or.inr ⟨w', hw', hr'⟩)
    · rw [if_neg hcase] at hmem
      rcases ih with h1 | h1 | ⟨w', hw', hr'⟩
      · exact Or.inl (Reach.objStep hmem h1)
      · exact Or.inr (Or.inl h1)
      · exact Or.inr (Or.inr ⟨w', hw', hr'⟩)

/-- An entry of a cell after a Go map write is an old entry or holds the
written value. -/
theorem mem_mapSet {cell : List (String × GoVal)} {key : String} {v : GoVal}
    {kw : String × GoVal} (hmem : kw ∈ mapSet cell key v) :
    kw ∈ cell ∨ kw.2 = v := by
  induction cell with
  | nil =>
    simp [mapSet] at hmem
    exact Or.inr (by rw [hmem])
  | cons hd rest ih =>
    by_cases hk : hd.1 = key
    · rw [show mapSet (hd :: rest) key v = (key, v) :: rest by
        simp [mapSet, hk]] at hmem
      rcases List.mem_cons.mp hmem with h1 | h1
      · exact Or.inr (by rw [h1])
      · exact Or.inl (List.mem_cons_of_mem hd h1)
    · rw [show mapSet (hd :: rest) key v = hd :: mapSet rest key v by
        simp [mapSet, hk]] at hmem
      rcases List.mem_cons.mp hmem with h1 | h1
      · exact Or.inl (by rw [h1]; exact List.mem_cons_self hd rest)
      · rcases ih h1 with h2 | h2
        · exact Or.inl (List.mem_cons_of_mem hd h2)
        · exact Or.inr h2

/-- A successful Go map lookup is a cell entry. -/
theorem mapGet_mem {cell : List (String × GoVal)} {k : String} {w : GoVal}
    (hget : mapGet cell k = some w) : (k, w) ∈ cell := by
  induction cell with
  | nil => simp [mapGet, List.find?] at hget
  | cons hd rest ih =>
    rw [mapGet_cons] at hget
    by_cases hk : hd.1 = k
    · rw [if_pos hk] at hget
      have : hd = (k, w) := by
        rcases hd with ⟨k0, v0⟩
        simp at hk
        simp at hget
        rw [hk, hget]
      exact this ▸ List.mem_cons_self hd rest
    · rw [if_neg hk] at hget
      exact List.mem_cons_of_mem hd (ih hget)

/-- If every cell reachable from a value agrees between two heaps, then
reachability in the second heap implies reachability in the first. -/
theorem reach_le {h0 h1 : Heap} : ∀ {v : GoVal} {c : Addr},
    Reach h1 v c → (∀ c', Reach h0 v c' → cellAgree h0 h1 c') →
    Reach h0 v c := by
  intro v c hr
  induction hr with
  | arrSelf a => exact fun _ => Reach.arrSelf a
  | objSelf o => exact fun _ => Reach.objSelf o
  | @arrStep a w c2 hmem hsub ih =>
    intro hag
    have hcell : arrCell h1 a = arrCell h0 a :=
      arrCell_eq_of_agree (hag _ (Reach.arrSelf a))
    rw [hcell] at hmem
    refine Reach.arrStep hmem (ih (fun c' hc' => hag c' (Reach.arrStep hmem hc')))
  | @objStep o k w c2 hmem hsub ih =>
    intro hag
    have hcell : objCell h1 o = objCell h0 o :=
      objCell_eq_of_agree (hag _ (Reach.objSelf o))
    rw [hcell] at hmem
    refine Reach.objStep hmem (ih (fun c' hc' => hag c' (Reach.objStep hmem hc')))

/-- In-bounds element reads are members of the cell. -/
theorem getD_mem_of_lt {l : List GoVal} {i : Nat} (hi : i < l.length) :
    l.getD i GoVal.null ∈ l := by
  rw [List.getD_eq_getElem?_getD, List.getElem?_eq_getElem hi]
  exact List.getElem_mem hi

/-- Navigation reads only cells reachable from the start value, so two
heaps that agree there navigate identically. -/
theorem getByPathLoop_congr {h0 h1 : Heap} : ∀ (parts : List String)
    (v : GoVal) (fp : String),
    (∀ c, Reach h0 v c → cellAgree h0 h1 c) →
    getByPathLoop h1 v parts fp = getByPathLoop h0 v parts fp := by
  intro parts
  induction parts with
  | nil => intro v fp hag; rfl
  | cons part rest ih =>
    intro v fp hag
    cases v with
    | arrRef a =>
      cases hga : goAtoi part with
      | some idx =>
        have hcell : arrCell h1 a = arrCell h0 a :=
          arrCell_eq_of_agree (hag _ (Reach.arrSelf a))
        simp only [getByPathLoop, hga, hcell]
        by_cases hb : idx < 0 ∨ ((arrCell h0 a).length : Int) ≤ idx
        · rw [if_pos hb, if_pos hb]
        · rw [if_neg hb, if_neg hb]
          refine ih _ fp (fun c hc => hag c (Reach.arrStep ?_ hc))
          push_neg at hb
          refine getD_mem_of_lt ?_
          omega
      | none => simp only [getByPathLoop, hga]
    | objRef o =>
      have hcell : objCell h1 o = objCell h0 o :=
        objCell_eq_of_agree (hag _ (Reach.objSelf o))
      have hrest : ∀ w, mapGet (objCell h0 o) part = some w →
          getByPathLoop h1 w rest fp = getByPathLoop h0 w rest fp := by
        intro w hw
        exact ih _ fp (fun c hc => hag c (Reach.objStep (mapGet_mem hw) hc))
      cases hga : goAtoi part with
      | some idx =>
        simp only [getByPathLoop, hga, hcell]
        cases hmg : mapGet (objCell h0 o) part with
        | some w => exact hrest w hmg
        | none => rfl
      | none =>
        simp only [getByPathLoop, hga, hcell]
        cases hmg : mapGet (objCell h0 o) part with
        | some w => exact hrest w hmg
        | none => rfl
    | null => cases hga : goAtoi part <;> simp only [getByPathLoop, hga]
    | goBool b => cases hga : goAtoi part <;> simp only [getByPathLoop, hga]
    | goInt n => cases hga : goAtoi part <;> simp only [getByPathLoop, hga]
    | goInt64 n => cases hga : goAtoi part <;> simp only [getByPathLoop, hga]
    | goFloat q => cases hga : goAtoi part <;> simp only [getByPathLoop, hga]
    | goStr s => cases hga : goAtoi part <;> simp only [getByPathLoop, hga]

/-- Heap-agreement version of `getByPath` for whole values. -/
theorem getByPath_congr {h0 h1 : Heap} (j : JSON)
    (hag : ∀ c, Reach h0 j.data c → cellAgree h0 h1 c) (q : String) :
    getByPath h1 j q = getByPath h0 j q := by
  by_cases hq : q = ""
  · simp [getByPath, hq]
  · simp only [getByPath, if_neg hq]
    exact getByPathLoop_congr _ j.data q hag

/-- Heap-agreement version of `Has`. -/
theorem Has_congr {h0 h1 : Heap} (j : JSON)
    (hag : ∀ c, Reach h0 j.data c → cellAgree h0 h1 c) (q : String) :
    JSON.Has h1 j q = JSON.Has h0 j q := by
  simp only [JSON.Has, getByPath_congr j hag q]


/-- Tree read-back reads only reachable cells: joint congruence statement
for `toTree`, `toTreeElems` and `toTreePairs`. -/
theorem toTree_congr_all {h0 h1 : Heap} : ∀ (tf : Nat),
    (∀ v, (∀ c, Reach h0 v c → cellAgree h0 h1 c) →
      toTree tf h1 v = toTree tf h0 v) ∧
    (∀ l : List GoVal, (∀ w ∈ l, ∀ c, Reach h0 w c → cellAgree h0 h1 c) →
      toTreeElems tf h1 l = toTreeElems tf h0 l) ∧
    (∀ l : List (String × GoVal),
      (∀ kw ∈ l, ∀ c, Reach h0 kw.2 c → cellAgree h0 h1 c) →
      toTreePairs tf h1 l = toTreePairs tf h0 l) := by
  intro tf
  induction tf using Nat.strong_induction_on with
  | _ tf IH =>
    have htree : ∀ v, (∀ c, Reach h0 v c → cellAgree h0 h1 c) →
        toTree tf h1 v = toTree tf h0 v := by
      intro v hag
      match tf, v with
      | 0, _ => simp only [toTree]
      | Nat.succ m, GoVal.arrRef a =>
        have hcell : arrCell h1 a = arrCell h0 a :=
          arrCell_eq_of_agree (hag _ (Reach.arrSelf a))
        have helems := (IH m (Nat.lt_succ_self m)).2.1 (arrCell h0 a)
          (fun w hw c hc => hag c (Reach.arrStep hw hc))
        simp only [toTree, hcell, helems]
      | Nat.succ m, GoVal.objRef o =>
        have hcell : objCell h1 o = objCell h0 o :=
          objCell_eq_of_agree (hag _ (Reach.objSelf o))
        have hpairs := (IH m (Nat.lt_succ_self m)).2.2 (objCell h0 o)
          (fun kw hw c hc =>
            hag c (@Reach.objStep h0 o kw.1 kw.2 c hw hc))
        simp only [toTree, hcell, hpairs]
      | Nat.succ m, GoVal.null => simp only [toTree]
      | Nat.succ m, GoVal.goBool b => simp only [toTree]
      | Nat.succ m, GoVal.goInt n => simp only [toTree]
      | Nat.succ m, GoVal.goInt64 n => simp only [toTree]
      | Nat.succ m, GoVal.goFloat q => simp only [toTree]
      | Nat.succ m, GoVal.goStr s => simp only [toTree]
    refine ⟨htree, ?_, ?_⟩
    · intro l hl
      induction l with
      | nil => simp only [toTreeElems]
      | cons w rest ihl =>
        have h1w := htree w (hl w (List.mem_cons_self w rest))
        have h2w := ihl (fun w' hw' => hl w' (List.mem_cons_of_mem w hw'))
        simp only [toTreeElems, h1w, h2w]
    · intro l hl
      induction l with
      | nil => simp only [toTreePairs]
      | cons kw rest ihl =>
        have h1w := htree kw.2 (hl kw (List.mem_cons_self kw rest))
        have h2w := ihl (fun kw' hw' => hl kw' (List.mem_cons_of_mem kw hw'))
        simp only [toTreePairs, h1w, h2w]

/-- The second heap extends the first: at least as many cells, and every
old cell unchanged. -/
def heapExtends (h h' : Heap) : Prop :=
  h.arrs.length ≤ h'.arrs.length ∧ h.objs.length ≤ h'.objs.length ∧
  (∀ a, a < h.arrs.length → h'.arrs[a]? = h.arrs[a]?) ∧
  (∀ o, o < h.objs.length → h'.objs[o]? = h.objs[o]?)

theorem heapExtends_refl (h : Heap) : heapExtends h h :=
  ⟨le_refl _, le_refl _, fun _ _ => rfl, fun _ _ => rfl⟩

theorem heapExtends_trans {h1 h2 h3 : Heap} (h12 : heapExtends h1 h2)
    (h23 : heapExtends h2 h3) : heapExtends h1 h3 :=
  ⟨le_trans h12.1 h23.1, le_trans h12.2.1 h23.2.1,
   fun a ha => ((h23.2.2.1 a (lt_of_lt_of_le ha h12.1)).trans (h12.2.2.1 a ha)),
   fun o ho => ((h23.2.2.2 o (lt_of_lt_of_le ho h12.2.1)).trans (h12.2.2.2 o ho))⟩

theorem heapExtends_allocArr (h : Heap) (cell : List GoVal) :
    heapExtends h (allocArr h cell).1 := by
  refine ⟨by simp [allocArr], by simp [allocArr], ?_, fun o ho => rfl⟩
  intro a ha
  exact allocArr_get?_lt h cell a ha

theorem heapExtends_allocObj (h : Heap) (cell : List (String × GoVal)) :
    heapExtends h (allocObj h cell).1 := by
  refine ⟨by simp [allocObj], by simp [allocObj], fun a ha => rfl, ?_⟩
  intro o ho
  exact allocObj_get?_lt h cell o ho

/-- An extension agrees with the original on cells reachable from a
well-formed value. -/
theorem agree_of_extends {h h' : Heap} (hex : heapExtends h h') {v : GoVal}
    (hwf : ∀ c, Reach h v c → inBounds h c) :
    ∀ c, Reach h v c → cellAgree h h' c := by
  intro c hc
  have hib := hwf c hc
  cases c with
  | arrA a => exact (hex.2.2.1 a hib).symm
  | objA o => exact (hex.2.2.2 o hib).symm

/-- Reachability from a well-formed value is stable under extension. -/
theorem reach_of_extends {h h' : Heap} (hex : heapExtends h h') {v : GoVal}
    (hwf : ∀ c, Reach h v c → inBounds h c) {c : Addr}
    (hc : Reach h' v c) : Reach h v c :=
  reach_le hc (agree_of_extends hex hwf)

/-- Scalars reach no heap cell. -/
theorem reach_scalar_false {h : Heap} {v : GoVal} {c : Addr}
    (hv : ∀ a, v ≠ GoVal.arrRef a) (hv2 : ∀ o, v ≠ GoVal.objRef o)
    (hr : Reach h v c) : False := by
  cases hr with
  | arrSelf a => exact hv a rfl
  | objSelf o => exact hv2 o rfl
  | arrStep hmem hsub => exact hv _ rfl
  | objStep hmem hsub => exact hv2 _ rfl

/-- What `deepClone` guarantees: the heap is only extended, the copy
lives entirely in freshly allocated cells, and it reads back as the same
tree as the source did in the original heap. -/
def cloneValOK (h h' : Heap) (v v' : GoVal) : Prop :=
  heapExtends h h' ∧
  (∀ c, Reach h' v' c → inBounds h' c ∧ ¬ inBounds h c) ∧
  (∀ tf, toTree tf h' v' = toTree tf h v)

/-- Joint specification of `deepClone`, `deepCloneElems` and
`deepClonePairs` on well-formed (non-dangling) sources. -/
theorem deepClone_spec : ∀ (fuel : Nat),
    (∀ h v h' v', (∀ c, Reach h v c → inBounds h c) →
      deepClone fuel h v = some (h', v') → cloneValOK h h' v v') ∧
    (∀ h (l : List GoVal) h' l',
      (∀ w ∈ l, ∀ c, Reach h w c → inBounds h c) →
      deepCloneElems fuel h l = some (h', l') →
      heapExtends h h' ∧
      (∀ w' ∈ l', ∀ c, Reach h' w' c → inBounds h' c ∧ ¬ inBounds h c) ∧
      (∀ tf, toTreeElems tf h' l' = toTreeElems tf h l)) ∧
    (∀ h (l : List (String × GoVal)) h' l',
      (∀ kw ∈ l, ∀ c, Reach h kw.2 c → inBounds h c) →
      deepClonePairs fuel h l = some (h', l') →
      heapExtends h h' ∧
      (∀ kw ∈ l', ∀ c, Reach h' (Prod.snd kw) c → inBounds h' c ∧ ¬ inBounds h c) ∧
      (∀ tf, toTreePairs tf h' l' = toTreePairs tf h l)) := by
  intro fuel
  induction fuel using Nat.strong_induction_on with
  | _ fuel IH =>
    have htree : ∀ h v h' v', (∀ c, Reach h v c → inBounds h c) →
        deepClone fuel h v = some (h', v') → cloneValOK h h' v v' := by
      intro h v h' v' hwf heq
      match fuel, v with
      | 0, _ => simp only [deepClone] at heq; exact absurd heq (by simp)
      | Nat.succ m, GoVal.arrRef a =>
        simp only [deepClone] at heq
        cases helems : deepCloneElems m h (arrCell h a) with
        | none => rw [helems] at heq; exact absurd heq (by simp)
        | some pr =>
          rcases pr with ⟨h1, cell'⟩
          rw [helems] at heq
          simp only [allocArr] at heq
          obtain ⟨hh, hv⟩ : ({ h1 with arrs := h1.arrs ++ [cell'] } : Heap) = h'
              ∧ GoVal.arrRef h1.arrs.length = v' := by
            constructor <;> cases heq <;> rfl
          have hwfel : ∀ w ∈ arrCell h a, ∀ c, Reach h w c → inBounds h c :=
            fun w hw c hc => hwf c (Reach.arrStep hw hc)
          obtain ⟨hex1, hfresh1, htr1⟩ :=
            (IH m (Nat.lt_succ_self m)).2.1 h (arrCell h a) h1 cell' hwfel helems
          subst hh
          subst hv
          have hex2 : heapExtends h1 ({ h1 with arrs := h1.arrs ++ [cell'] } : Heap) :=
            heapExtends_allocArr h1 cell'
          refine ⟨heapExtends_trans hex1 hex2, ?_, ?_⟩
          · intro c hc
            rcases reach_allocArr hc with h2 | h2 | ⟨w, hwmem, hwreach⟩
            · have hdang : arrCell h1 h1.arrs.length = [] := by
                simp [arrCell, List.getD_eq_getElem?_getD,
                  List.getElem?_eq_none_iff.mpr (le_refl h1.arrs.length)]
              cases h2 with
              | arrSelf =>
                refine ⟨by simp [inBounds], ?_⟩
                simp only [inBounds]
                have hlen := hex1.1
                omega
              | arrStep hmem hsub =>
                rw [hdang] at hmem
                exact absurd hmem (List.not_mem_nil _)
            · subst h2
              refine ⟨by simp [inBounds], ?_⟩
              simp only [inBounds]
              have hlen := hex1.1
              omega
            · obtain ⟨hib1, hib0⟩ := hfresh1 w hwmem _ hwreach
              refine ⟨?_, hib0⟩
              cases _hc : c with
              | arrA a2 =>
                subst _hc
                simp only [inBounds] at hib1 ⊢
                simp
                omega
              | objA o2 =>
                subst _hc
                simp only [inBounds] at hib1 ⊢
                exact hib1
          · intro tf
            match tf with
            | 0 => simp only [toTree]
            | Nat.succ k =>
              have hcellread :
                  arrCell ({ h1 with arrs := h1.arrs ++ [cell'] } : Heap)
                    h1.arrs.length = cell' := by
                have := arrCell_allocArr h1 cell' h1.arrs.length
                simpa [allocArr] using this
              have htrans : toTreeElems k
                  ({ h1 with arrs := h1.arrs ++ [cell'] } : Heap) cell' =
                  toTreeElems k h1 cell' := by
                have hagree : ∀ w ∈ cell', ∀ c, Reach h1 w c →
                    cellAgree h1 ({ h1 with arrs := h1.arrs ++ [cell'] } : Heap) c := by
                  intro w hw c hc
                  have hib := (hfresh1 w hw c hc).1
                  exact agree_of_extends hex2
                    (fun c' hc' => (hfresh1 w hw c' hc').1) c hc
                exact (toTree_congr_all k).2.1 cell' hagree
              simp only [toTree, hcellread, htrans, htr1 k]
      | Nat.succ m, GoVal.objRef o =>
        simp only [deepClone] at heq
        cases hpairs : deepClonePairs m h (objCell h o) with
        | none => rw [hpairs] at heq; exact absurd heq (by simp)
        | some pr =>
          rcases pr with ⟨h1, cell'⟩
          rw [hpairs] at heq
          simp only [allocObj] at heq
          obtain ⟨hh, hv⟩ : ({ h1 with objs := h1.objs ++ [cell'] } : Heap) = h'
              ∧ GoVal.objRef h1.objs.length = v' := by
            constructor <;> cases heq <;> rfl
          have hwfel : ∀ kw ∈ objCell h o, ∀ c, Reach h kw.2 c → inBounds h c :=
            fun kw hw c hc => hwf c (@Reach.objStep h o kw.1 kw.2 c hw hc)
          obtain ⟨hex1, hfresh1, htr1⟩ :=
            (IH m (Nat.lt_succ_self m)).2.2 h (objCell h o) h1 cell' hwfel hpairs
          subst hh
          subst hv
          have hex2 : heapExtends h1 ({ h1 with objs := h1.objs ++ [cell'] } : Heap) :=
            heapExtends_allocObj h1 cell'
          refine ⟨heapExtends_trans hex1 hex2, ?_, ?_⟩
          · intro c hc
            rcases reach_allocObj hc with h2 | h2 | ⟨kw, hwmem, hwreach⟩
            · have hdang : objCell h1 h1.objs.length = [] := by
                simp [objCell, List.getD_eq_getElem?_getD,
                  List.getElem?_eq_none_iff.mpr (le_refl h1.objs.length)]
              cases h2 with
              | objSelf =>
                refine ⟨by simp [inBounds], ?_⟩
                simp only [inBounds]
                have hlen := hex1.2.1
                omega
              | objStep hmem hsub =>
                rw [hdang] at hmem
                exact absurd hmem (List.not_mem_nil _)
            · subst h2
              refine ⟨by simp [inBounds], ?_⟩
              simp only [inBounds]
              have hlen := hex1.2.1
              omega
            · obtain ⟨hib1, hib0⟩ := hfresh1 kw hwmem _ hwreach
              refine ⟨?_, hib0⟩
              cases _hc : c with
              | arrA a2 =>
                subst _hc
                simp only [inBounds] at hib1 ⊢
                exact hib1
              | objA o2 =>
                subst _hc
                simp only [inBounds] at hib1 ⊢
                simp
                omega
          · intro tf
            match tf with
            | 0 => simp only [toTree]
            | Nat.succ k =>
              have hcellread :
                  objCell ({ h1 with objs := h1.objs ++ [cell'] } : Heap)
                    h1.objs.length = cell' := by
                have := objCell_allocObj h1 cell' h1.objs.length
                simpa [allocObj] using this
              have htrans : toTreePairs k
                  ({ h1 with objs := h1.objs ++ [cell'] } : Heap) cell' =
                  toTreePairs k h1 cell' := by
                have hagree : ∀ kw ∈ cell', ∀ c, Reach h1 kw.2 c →
                    cellAgree h1 ({ h1 with objs := h1.objs ++ [cell'] } : Heap) c := by
                  intro kw hw c hc
                  exact agree_of_extends hex2
                    (fun c' hc' => (hfresh1 kw hw c' hc').1) c hc
                exact (toTree_congr_all k).2.2 cell' hagree
              simp only [toTree, hcellread, htrans, htr1 k]
      | Nat.succ m, GoVal.null =>
        simp only [deepClone] at heq
        obtain ⟨hh, hv⟩ : h = h' ∧ GoVal.null = v' := by
          constructor <;> cases heq <;> rfl
        subst hh; subst hv
        exact ⟨heapExtends_refl h, fun c hc => (reach_scalar_false (fun a heq => GoVal.noConfusion heq) (fun o heq => GoVal.noConfusion heq) hc).elim, fun tf => rfl⟩
      | Nat.succ m, GoVal.goBool b =>
        simp only [deepClone] at heq
        obtain ⟨hh, hv⟩ : h = h' ∧ GoVal.goBool b = v' := by
          constructor <;> cases heq <;> rfl
        subst hh; subst hv
        exact ⟨heapExtends_refl h, fun c hc => (reach_scalar_false (fun a heq => GoVal.noConfusion heq) (fun o heq => GoVal.noConfusion heq) hc).elim, fun tf => rfl⟩
      | Nat.succ m, GoVal.goInt n =>
        simp only [deepClone] at heq
        obtain ⟨hh, hv⟩ : h = h' ∧ GoVal.goInt n = v' := by
          constructor <;> cases heq <;> rfl
        subst hh; subst hv
        exact ⟨heapExtends_refl h, fun c hc => (reach_scalar_false (fun a heq => GoVal.noConfusion heq) (fun o heq => GoVal.noConfusion heq) hc).elim, fun tf => rfl⟩
      | Nat.succ m, GoVal.goInt64 n =>
        simp only [deepClone] at heq
        obtain ⟨hh, hv⟩ : h = h' ∧ GoVal.goInt64 n = v' := by
          constructor <;> cases heq <;> rfl
        subst hh; subst hv
        exact ⟨heapExtends_refl h, fun c hc => (reach_scalar_false (fun a heq => GoVal.noConfusion heq) (fun o heq => GoVal.noConfusion heq) hc).elim, fun tf => rfl⟩
      | Nat.succ m, GoVal.goFloat q =>
        simp only [deepClone] at heq
        obtain ⟨hh, hv⟩ : h = h' ∧ GoVal.goFloat q = v' := by
          constructor <;> cases heq <;> rfl
        subst hh; subst hv
        exact ⟨heapExtends_refl h, fun c hc => (reach_scalar_false (fun a heq => GoVal.noConfusion heq) (fun o heq => GoVal.noConfusion heq) hc).elim, fun tf => rfl⟩
      | Nat.succ m, GoVal.goStr s =>
        simp only [deepClone] at heq
        obtain ⟨hh, hv⟩ : h = h' ∧ GoVal.goStr s = v' := by
          constructor <;> cases heq <;> rfl
        subst hh; subst hv
        exact ⟨heapExtends_refl h, fun c hc => (reach_scalar_false (fun a heq => GoVal.noConfusion heq) (fun o heq => GoVal.noConfusion heq) hc).elim, fun tf => rfl⟩
    refine ⟨htree, ?_, ?_⟩
    · intro h l
      induction l generalizing h with
      | nil =>
        intro h' l' hwf heq
        simp only [deepCloneElems] at heq
        obtain ⟨hh, hl⟩ : h = h' ∧ ([] : List GoVal) = l' := by
          constructor <;> cases heq <;> rfl
        subst hh; subst hl
        exact ⟨heapExtends_refl h, by simp, fun tf => rfl⟩
      | cons v rest ihl =>
        intro h' l' hwf heq
        cases hcl : deepClone fuel h v with
        | none => simp only [deepCloneElems, hcl] at heq; exact absurd heq (by simp)
        | some pr1 =>
          rcases pr1 with ⟨h1, v1⟩
          cases hrest : deepCloneElems fuel h1 rest with
          | none => simp only [deepCloneElems, hcl, hrest] at heq; exact absurd heq (by simp)
          | some pr2 =>
            rcases pr2 with ⟨h2, rest'⟩
            simp only [deepCloneElems, hcl, hrest, Option.some.injEq,
              Prod.mk.injEq] at heq
            obtain ⟨hh, hl⟩ := heq
            subst hh; subst hl
            have hwfv : ∀ c, Reach h v c → inBounds h c :=
              fun c hc => hwf v (List.mem_cons_self v rest) c hc
            obtain ⟨hex1, hfresh1, htr1⟩ := htree h v h1 v1 hwfv hcl
            have hwfrest : ∀ w ∈ rest, ∀ c, Reach h1 w c → inBounds h1 c := by
              intro w hw c hc
              have hwfw : ∀ c', Reach h w c' → inBounds h c' :=
                fun c' hc' => hwf w (List.mem_cons_of_mem v hw) c' hc'
              have hc0 : Reach h w c := reach_of_extends hex1 hwfw hc
              have := hwfw c hc0
              cases c with
              | arrA a2 => exact lt_of_lt_of_le this hex1.1
              | objA o2 => exact lt_of_lt_of_le this hex1.2.1
            obtain ⟨hex2, hfresh2, htr2⟩ := ihl h1 h2 rest' hwfrest hrest
            refine ⟨heapExtends_trans hex1 hex2, ?_, ?_⟩
            · intro w' hw' c hc
              rcases List.mem_cons.mp hw' with h3 | h3
              · subst h3
                have hreach1 : Reach h1 w' c :=
                  reach_of_extends hex2 (fun c' hc' => (hfresh1 c' hc').1) hc
                obtain ⟨hib1, hib0⟩ := hfresh1 c hreach1
                refine ⟨?_, hib0⟩
                cases c with
                | arrA a2 => exact lt_of_lt_of_le hib1 hex2.1
                | objA o2 => exact lt_of_lt_of_le hib1 hex2.2.1
              · obtain ⟨hib2, hib1⟩ := hfresh2 w' h3 c hc
                refine ⟨hib2, ?_⟩
                intro hbad
                apply hib1
                cases c with
                | arrA a2 => exact lt_of_lt_of_le hbad hex1.1
                | objA o2 => exact lt_of_lt_of_le hbad hex1.2.1
            · intro tf
              have hv1trans : toTree tf h2 v1 = toTree tf h1 v1 :=
                (toTree_congr_all tf).1 v1
                  (agree_of_extends hex2 (fun c' hc' => (hfresh1 c' hc').1))
              have hsrc : toTreeElems tf h1 rest = toTreeElems tf h rest := by
                refine (toTree_congr_all tf).2.1 rest ?_
                intro w hw c hc
                exact agree_of_extends hex1
                  (fun c' hc' => hwf w (List.mem_cons_of_mem v hw) c' hc') c hc
              simp only [toTreeElems, hv1trans, htr1 tf, htr2 tf, hsrc]
    · intro h l
      induction l generalizing h with
      | nil =>
        intro h' l' hwf heq
        simp only [deepClonePairs] at heq
        obtain ⟨hh, hl⟩ : h = h' ∧ ([] : List (String × GoVal)) = l' := by
          constructor <;> cases heq <;> rfl
        subst hh; subst hl
        exact ⟨heapExtends_refl h, by simp, fun tf => rfl⟩
      | cons kv rest ihl =>
        intro h' l' hwf heq
        cases hcl : deepClone fuel h kv.2 with
        | none => simp only [deepClonePairs, hcl] at heq; exact absurd heq (by simp)
        | some pr1 =>
          rcases pr1 with ⟨h1, v1⟩
          cases hrest : deepClonePairs fuel h1 rest with
          | none => simp only [deepClonePairs, hcl, hrest] at heq; exact absurd heq (by simp)
          | some pr2 =>
            rcases pr2 with ⟨h2, rest'⟩
            simp only [deepClonePairs, hcl, hrest, Option.some.injEq,
              Prod.mk.injEq] at heq
            obtain ⟨hh, hl⟩ := heq
            subst hh; subst hl
            have hwfv : ∀ c, Reach h kv.2 c → inBounds h c :=
              fun c hc => hwf kv (List.mem_cons_self kv rest) c hc
            obtain ⟨hex1, hfresh1, htr1⟩ := htree h kv.2 h1 v1 hwfv hcl
            have hwfrest : ∀ kw ∈ rest, ∀ c, Reach h1 kw.2 c → inBounds h1 c := by
              intro kw hw c hc
              have hwfw : ∀ c', Reach h kw.2 c' → inBounds h c' :=
                fun c' hc' => hwf kw (List.mem_cons_of_mem kv hw) c' hc'
              have hc0 : Reach h kw.2 c := reach_of_extends hex1 hwfw hc
              have := hwfw c hc0
              cases c with
              | arrA a2 => exact lt_of_lt_of_le this hex1.1
              | objA o2 => exact lt_of_lt_of_le this hex1.2.1
            obtain ⟨hex2, hfresh2, htr2⟩ := ihl h1 h2 rest' hwfrest hrest
            refine ⟨heapExtends_trans hex1 hex2, ?_, ?_⟩
            · intro kw hw' c hc
              rcases List.mem_cons.mp hw' with h3 | h3
              · subst h3
                have hreach1 : Reach h1 v1 c :=
                  reach_of_extends hex2 (fun c' hc' => (hfresh1 c' hc').1) hc
                obtain ⟨hib1, hib0⟩ := hfresh1 c hreach1
                refine ⟨?_, hib0⟩
                cases c with
                | arrA a2 => exact lt_of_lt_of_le hib1 hex2.1
                | objA o2 => exact lt_of_lt_of_le hib1 hex2.2.1
              · obtain ⟨hib2, hib1⟩ := hfresh2 kw h3 c hc
                refine ⟨hib2, ?_⟩
                intro hbad
                apply hib1
                cases c with
                | arrA a2 => exact lt_of_lt_of_le hbad hex1.1
                | objA o2 => exact lt_of_lt_of_le hbad hex1.2.1
            · intro tf
              have hv1trans : toTree tf h2 v1 = toTree tf h1 v1 :=
                (toTree_congr_all tf).1 v1
                  (agree_of_extends hex2 (fun c' hc' => (hfresh1 c' hc').1))
              have hsrc : toTreePairs tf h1 rest = toTreePairs tf h rest := by
                refine (toTree_congr_all tf).2.2 rest ?_
                intro kw hw c hc
                exact agree_of_extends hex1
                  (fun c' hc' => hwf kw (List.mem_cons_of_mem kv hw) c' hc') c hc
              simp only [toTreePairs, hv1trans, htr1 tf, htr2 tf, hsrc]

/-! ## Frame reasoning for Set: a mutation starting from a value that
cannot reach a protected cell never changes a protected cell. -/

/-- Every protected address is allocated in the base heap. -/
def protOK (H : Heap) (P : Addr → Prop) : Prop := ∀ c, P c → inBounds H c

/-- The current heap still agrees with the base heap on protected cells,
and has at least as many cells. -/
def frameInv (H : Heap) (P : Addr → Prop) (h : Heap) : Prop :=
  (∀ c, P c → cellAgree H h c) ∧
  H.arrs.length ≤ h.arrs.length ∧ H.objs.length ≤ h.objs.length

/-- The value cannot reach any protected cell. -/
def safeV (P : Addr → Prop) (h : Heap) (v : GoVal) : Prop :=
  ∀ c, Reach h v c → ¬ P c

theorem safeV_null {P : Addr → Prop} {h : Heap} : safeV P h GoVal.null :=
  fun _ hc => (reach_scalar_false (fun _ heq => GoVal.noConfusion heq)
    (fun _ heq => GoVal.noConfusion heq) hc).elim

theorem safeV_elem_arr {P : Addr → Prop} {h : Heap} {a : Nat} {w : GoVal}
    (hv : safeV P h (GoVal.arrRef a)) (hw : w ∈ arrCell h a) : safeV P h w :=
  fun c hc => hv c (Reach.arrStep hw hc)

theorem safeV_elem_obj {P : Addr → Prop} {h : Heap} {o : Nat}
    {kw : String × GoVal} (hv : safeV P h (GoVal.objRef o))
    (hw : kw ∈ objCell h o) : safeV P h kw.2 :=
  fun c hc => hv c (@Reach.objStep h o kw.1 kw.2 c hw hc)

theorem safeV_getD_arr {P : Addr → Prop} {h : Heap} {a : Nat} (i : Nat)
    (hv : safeV P h (GoVal.arrRef a)) :
    safeV P h ((arrCell h a).getD i GoVal.null) := by
  by_cases hi : i < (arrCell h a).length
  · exact safeV_elem_arr hv (getD_mem_of_lt hi)
  · rw [List.getD_eq_getElem?_getD, List.getElem?_eq_none_iff.mpr (by omega)]
    exact safeV_null

theorem safeV_mapGetD {P : Addr → Prop} {h : Heap} {o : Nat} (part : String)
    (hv : safeV P h (GoVal.objRef o)) :
    safeV P h ((mapGet (objCell h o) part).getD GoVal.null) := by
  cases hmg : mapGet (objCell h o) part with
  | none => exact safeV_null
  | some w =>
    exact safeV_elem_obj hv (mapGet_mem hmg)

/-- Writing safe contents into an unprotected slice cell preserves the
frame invariant and value safety. -/
theorem frame_writeArr {H : Heap} {P : Addr → Prop} {h : Heap} {t : Nat}
    {cell : List GoVal} (hInv : frameInv H P h) (ht : ¬ P (Addr.arrA t))
    (hcell : ∀ w ∈ cell, safeV P h w) :
    frameInv H P (writeArr h t cell) ∧
    (∀ v, safeV P h v → safeV P (writeArr h t cell) v) := by
  constructor
  · refine ⟨?_, ?_, ?_⟩
    · intro c hc
      have hag := hInv.1 c hc
      cases c with
      | arrA a =>
        have hne : t ≠ a := fun heq => ht (heq ▸ hc)
        simp only [cellAgree] at hag ⊢
        rw [writeArr_get?_ne h t cell a hne]
        exact hag
      | objA o =>
        simp only [cellAgree] at hag ⊢
        exact hag
    · rw [writeArr_arrs_length]; exact hInv.2.1
    · exact hInv.2.2
  · intro v hv c hc
    rcases reach_writeArr hc with h1 | ⟨w, hw, hr⟩
    · exact hv c h1
    · exact hcell w hw c hr

/-- Writing safe contents into an unprotected map cell. -/
theorem frame_writeObj {H : Heap} {P : Addr → Prop} {h : Heap} {t : Nat}
    {cell : List (String × GoVal)} (hInv : frameInv H P h)
    (ht : ¬ P (Addr.objA t)) (hcell : ∀ kw ∈ cell, safeV P h kw.2) :
    frameInv H P (writeObj h t cell) ∧
    (∀ v, safeV P h v → safeV P (writeObj h t cell) v) := by
  constructor
  · refine ⟨?_, ?_, ?_⟩
    · intro c hc
      have hag := hInv.1 c hc
      cases c with
      | arrA a =>
        simp only [cellAgree] at hag ⊢
        exact hag
      | objA o =>
        have hne : t ≠ o := fun heq => ht (heq ▸ hc)
        simp only [cellAgree] at hag ⊢
        rw [writeObj_get?_ne h t cell o hne]
        exact hag
    · exact hInv.2.1
    · rw [writeObj_objs_length]; exact hInv.2.2
  · intro v hv c hc
    rcases reach_writeObj hc with h1 | ⟨kw, hw, hr⟩
    · exact hv c h1
    · exact hcell kw hw c hr

/-- Allocating a fresh slice cell with safe contents: the fresh address
is unprotected (protected cells are in-bounds in the base heap). -/
theorem frame_allocArr {H : Heap} {P : Addr → Prop} {h : Heap}
    {cell : List GoVal} (hP : protOK H P) (hInv : frameInv H P h)
    (hcell : ∀ w ∈ cell, safeV P h w) :
    frameInv H P (allocArr h cell).1 ∧
    (∀ v, safeV P h v → safeV P (allocArr h cell).1 v) ∧
    safeV P (allocArr h cell).1 (GoVal.arrRef (allocArr h cell).2) := by
  have hfresh : ¬ P (Addr.arrA h.arrs.length) := by
    intro hcon
    have h1 := hP _ hcon
    have h2 := hInv.2.1
    simp only [inBounds] at h1
    omega
  have hsafe : ∀ v, safeV P h v → safeV P (allocArr h cell).1 v := by
    intro v hv c hc
    rcases reach_allocArr hc with h1 | h1 | ⟨w, hw, hr⟩
    · exact hv c h1
    · subst h1; exact hfresh
    · exact hcell w hw c hr
  refine ⟨⟨?_, ?_, ?_⟩, hsafe, ?_⟩
  · intro c hc
    have hag := hInv.1 c hc
    cases c with
    | arrA a =>
      have hb := hP _ hc
      simp only [inBounds] at hb
      simp only [cellAgree] at hag ⊢
      rw [allocArr_get?_lt h cell a (by have := hInv.2.1; omega)]
      exact hag
    | objA o =>
      simp only [cellAgree] at hag ⊢
      exact hag
  · have := hInv.2.1
    simp only [allocArr]
    simp
    omega
  · exact hInv.2.2
  · intro c hc
    rcases reach_allocArr hc with h1 | h1 | ⟨w, hw, hr⟩
    · -- reach of the fresh reference in the old heap: self or dangling
      cases h1 with
      | arrSelf => exact hfresh
      | arrStep hmem hsub =>
        simp only [allocArr] at hmem
        rw [show arrCell h h.arrs.length = [] from by
          simp [arrCell, List.getD_eq_getElem?_getD,
            List.getElem?_eq_none_iff.mpr (le_refl h.arrs.length)]] at hmem
        exact absurd hmem (List.not_mem_nil _)
    · subst h1; exact hfresh
    · exact hcell w hw c hr

/-- Allocating a fresh map cell with safe contents. -/
theorem frame_allocObj {H : Heap} {P : Addr → Prop} {h : Heap}
    {cell : List (String × GoVal)} (hP : protOK H P) (hInv : frameInv H P h)
    (hcell : ∀ kw ∈ cell, safeV P h kw.2) :
    frameInv H P (allocObj h cell).1 ∧
    (∀ v, safeV P h v → safeV P (allocObj h cell).1 v) ∧
    safeV P (allocObj h cell).1 (GoVal.objRef (allocObj h cell).2) := by
  have hfresh : ¬ P (Addr.objA h.objs.length) := by
    intro hcon
    have h1 := hP _ hcon
    have h2 := hInv.2.2
    simp only [inBounds] at h1
    omega
  have hsafe : ∀ v, safeV P h v → safeV P (allocObj h cell).1 v := by
    intro v hv c hc
    rcases reach_allocObj hc with h1 | h1 | ⟨kw, hw, hr⟩
    · exact hv c h1
    · subst h1; exact hfresh
    · exact hcell kw hw c hr
  refine ⟨⟨?_, ?_, ?_⟩, hsafe, ?_⟩
  · intro c hc
    have hag := hInv.1 c hc
    cases c with
    | arrA a =>
      simp only [cellAgree] at hag ⊢
      exact hag
    | objA o =>
      have hb := hP _ hc
      simp only [inBounds] at hb
      simp only [cellAgree] at hag ⊢
      rw [allocObj_get?_lt h cell o (by have := hInv.2.2; omega)]
      exact hag
  · exact hInv.2.1
  · have := hInv.2.2
    simp only [allocObj]
    simp
    omega
  · intro c hc
    rcases reach_allocObj hc with h1 | h1 | ⟨kw, hw, hr⟩
    · cases h1 with
      | objSelf => exact hfresh
      | objStep hmem hsub =>
        simp only [allocObj] at hmem
        rw [show objCell h h.objs.length = [] from by
          simp [objCell, List.getD_eq_getElem?_getD,
            List.getElem?_eq_none_iff.mpr (le_refl h.objs.length)]] at hmem
        exact absurd hmem (List.not_mem_nil _)
    · subst h1; exact hfresh
    · exact hcell kw hw c hr

/-- The growth loop: identity when long enough, otherwise a fresh padded
cell; safety of the resulting header follows from safety of the old one. -/
theorem frame_growTo {H : Heap} {P : Addr → Prop} {h : Heap} {a idx : Nat}
    {h1 : Heap} {a1 : Nat} (hP : protOK H P) (hInv : frameInv H P h)
    (hsafe : safeV P h (GoVal.arrRef a)) (heq : growTo h a idx = (h1, a1)) :
    frameInv H P h1 ∧ (∀ v, safeV P h v → safeV P h1 v) ∧
    safeV P h1 (GoVal.arrRef a1) := by
  by_cases hlen : (arrCell h a).length ≤ idx
  · have hcase : growTo h a idx =
        allocArr h (arrCell h a ++ List.replicate (idx + 1 - (arrCell h a).length) GoVal.null) := by
      simp [growTo, hlen]
    rw [hcase] at heq
    have hcell : ∀ w ∈ arrCell h a ++
        List.replicate (idx + 1 - (arrCell h a).length) GoVal.null,
        safeV P h w := by
      intro w hw
      rcases List.mem_append.mp hw with h2 | h2
      · exact safeV_elem_arr hsafe h2
      · rw [List.eq_of_mem_replicate h2]
        exact safeV_null
    obtain ⟨hInv', hpres, hfr⟩ := frame_allocArr hP hInv hcell
    have hh1 : h1 = (allocArr h (arrCell h a ++
        List.replicate (idx + 1 - (arrCell h a).length) GoVal.null)).1 := by
      rw [heq]
    have ha1 : a1 = (allocArr h (arrCell h a ++
        List.replicate (idx + 1 - (arrCell h a).length) GoVal.null)).2 := by
      rw [heq]
    rw [hh1, ha1]
    exact ⟨hInv', hpres, hfr⟩
  · have hcase : growTo h a idx = (h, a) := by
      simp [growTo, hlen]
    rw [hcase] at heq
    cases heq
    exact ⟨hInv, fun v hv => hv, hsafe⟩

/-- The write-back loop only writes through values reachable from the
navigation start, so it cannot touch protected cells. -/
theorem frame_udrLoop {H : Heap} {P : Addr → Prop} :
    ∀ (parts : List String) (h : Heap) (cur newRef : GoVal),
    frameInv H P h → safeV P h cur → safeV P h newRef →
    frameInv H P (udrLoop h cur parts newRef) ∧
    (∀ v, safeV P h v → safeV P (udrLoop h cur parts newRef) v) := by
  intro parts
  induction parts with
  | nil =>
    intro h cur newRef hInv hcur hnew
    exact ⟨hInv, fun v hv => hv⟩
  | cons part rest ih =>
    intro h cur newRef hInv hcur hnew
    cases rest with
    | nil =>
      cases cur
      case objRef o =>
        simp only [udrLoop]
        have ht : ¬ P (Addr.objA o) := hcur _ (Reach.objSelf o)
        have hcell : ∀ kw ∈ mapSet (objCell h o) part newRef, safeV P h kw.2 := by
          intro kw hkw
          rcases mem_mapSet hkw with h1 | h1
          · exact safeV_elem_obj hcur h1
          · rw [h1]; exact hnew
        exact frame_writeObj hInv ht hcell
      all_goals simp only [udrLoop]
      all_goals exact ⟨hInv, fun v hv => hv⟩
    | cons p2 ps =>
      cases hga : goAtoi part with
      | some idx =>
        cases cur
        case arrRef a =>
          simp only [udrLoop, hga]
          by_cases hbnd : 0 ≤ idx ∧ idx < ((arrCell h a).length : Int)
          · rw [if_pos hbnd]
            exact ih h _ newRef hInv (safeV_getD_arr _ hcur) hnew
          · rw [if_neg hbnd]
            exact ih h _ newRef hInv hcur hnew
        all_goals simp only [udrLoop, hga]
        all_goals exact ih h _ newRef hInv hcur hnew
      | none =>
        cases cur
        case objRef o =>
          simp only [udrLoop, hga]
          exact ih h _ newRef hInv (safeV_mapGetD part hcur) hnew
        all_goals simp only [udrLoop, hga]
        all_goals exact ih h _ newRef hInv hcur hnew

/-- `updateDataReference` preserves the frame and returns a safe root. -/
theorem frame_udr {H : Heap} {P : Addr → Prop} {h : Heap} {root : GoVal}
    {newRef : GoVal} {path : String} (hInv : frameInv H P h)
    (hroot : safeV P h root) (hnew : safeV P h newRef) :
    frameInv H P (updateDataReference (h, root) newRef path).1 ∧
    (∀ v, safeV P h v → safeV P (updateDataReference (h, root) newRef path).1 v) ∧
    safeV P (updateDataReference (h, root) newRef path).1
      (updateDataReference (h, root) newRef path).2 := by
  by_cases hp : path = ""
  · simp only [updateDataReference, hp, if_pos]
    exact ⟨hInv, fun v hv => hv, hnew⟩
  · simp only [updateDataReference, if_neg hp]
    obtain ⟨hInv1, hpres⟩ := frame_udrLoop (splitDot path) h root newRef
      hInv hroot hnew
    exact ⟨hInv1, hpres, hpres _ hroot⟩

/-- Frame lemma for `setByPathRecursive`: starting from a heap agreeing
with the base on protected cells, with a root, descent value and payload
that cannot reach protected cells, the recursion never changes a
protected cell, and the resulting root is still safe.  This is the core
of the Clone independence argument: `Set` on a clone touches only
clone-reachable or freshly allocated cells. -/
theorem frame_setRec {H : Heap} {P : Addr → Prop} (hP : protOK H P) :
    ∀ (parts : List String) (st : Heap × GoVal) (cur value : GoVal)
      (curPath : String) (res : (Heap × GoVal) × Option String),
    setByPathRecursive st cur parts value curPath = some res →
    frameInv H P st.1 → safeV P st.1 st.2 → safeV P st.1 cur →
    safeV P st.1 value →
    frameInv H P res.1.1 ∧ safeV P res.1.1 res.1.2 := by
  intro parts
  induction parts with
  | nil =>
    intro st cur value curPath res heq hInv hroot hcur hval
    simp only [setByPathRecursive] at heq
    cases heq
    exact ⟨hInv, hroot⟩
  | cons part rest ih =>
    intro st cur value curPath res heq hInv hroot hcur hval
    cases rest with
    | nil =>
      cases hga : goAtoi part with
      | some idx =>
        cases cur
        case arrRef a =>
          by_cases hb : idx < 0 ∨ 10000 ≤ idx
          · simp only [setByPathRecursive, hga, if_pos hb] at heq
            cases heq
            exact ⟨hInv, hroot⟩
          · rcases hgr : growTo st.1 a idx.toNat with ⟨h1, a1⟩
            simp only [setByPathRecursive, hga, if_neg hb, hgr] at heq
            obtain ⟨hInv1, hpres1, hfr1⟩ := frame_growTo hP hInv hcur hgr
            have ht : ¬ P (Addr.arrA a1) := hfr1 _ (Reach.arrSelf a1)
            have hcell : ∀ w ∈ (arrCell h1 a1).set idx.toNat value,
                safeV P h1 w := by
              intro w hw
              rcases List.mem_or_eq_of_mem_set hw with h1m | h1m
              · exact safeV_elem_arr hfr1 h1m
              · rw [h1m]; exact hpres1 _ hval
            obtain ⟨hInv2, hpres2⟩ := frame_writeArr hInv1 ht hcell
            have hnew2 : safeV P (writeArr h1 a1 ((arrCell h1 a1).set
                idx.toNat value)) (GoVal.arrRef a1) := hpres2 _ hfr1
            obtain ⟨hInv3, hpres3, hroot3⟩ := frame_udr hInv2
              (hpres2 _ (hpres1 _ hroot)) hnew2
            cases heq
            exact ⟨hInv3, hroot3⟩
        all_goals simp only [setByPathRecursive, hga] at heq
        all_goals cases heq
        all_goals exact ⟨hInv, hroot⟩
      | none =>
        cases cur
        case objRef o =>
          simp only [setByPathRecursive, hga] at heq
          have ht : ¬ P (Addr.objA o) := hcur _ (Reach.objSelf o)
          have hcell : ∀ kw ∈ mapSet (objCell st.1 o) part value,
              safeV P st.1 kw.2 := by
            intro kw hkw
            rcases mem_mapSet hkw with h1 | h1
            · exact safeV_elem_obj hcur h1
            · rw [h1]; exact hval
          obtain ⟨hInv1, hpres1⟩ := frame_writeObj hInv ht hcell
          cases heq
          exact ⟨hInv1, hpres1 _ hroot⟩
        all_goals simp only [setByPathRecursive, hga] at heq
        all_goals cases heq
        all_goals exact ⟨hInv, hroot⟩
    | cons p2 ps =>
      cases hga : goAtoi part with
      | some idx =>
        cases cur
        case arrRef a =>
          by_cases hb : idx < 0 ∨ 10000 ≤ idx
          · simp only [setByPathRecursive, hga, if_pos hb] at heq
            cases heq
            exact ⟨hInv, hroot⟩
          · rcases hgr : growTo st.1 a idx.toNat with ⟨h1, a1⟩
            obtain ⟨hInv1, hpres1, hfr1⟩ := frame_growTo hP hInv hcur hgr
            by_cases hnil : (arrCell h1 a1).getD idx.toNat GoVal.null = GoVal.null
            · cases hga2 : goAtoi p2 with
              | some nIdx =>
                by_cases hneg : nIdx + 1 < 0
                · simp only [setByPathRecursive, hga, if_neg hb, hgr,
                    List.headD, if_pos hnil, hga2, if_pos hneg] at heq
                  exact Option.noConfusion heq
                · simp only [setByPathRecursive, hga, if_neg hb, hgr,
                    List.headD, hnil, hga2, if_neg hneg] at heq
                  rcases hal : allocArr h1
                      (List.replicate (nIdx + 1).toNat GoVal.null) with ⟨h2, b⟩
                  rw [hal] at heq
                  have hcellB : ∀ w ∈ List.replicate (nIdx + 1).toNat
                      GoVal.null, safeV P h1 w := by
                    intro w hw
                    rw [List.eq_of_mem_replicate hw]
                    exact safeV_null
                  obtain ⟨hInv2, hpres2, hfrB⟩ := frame_allocArr hP hInv1 hcellB
                  rw [hal] at hInv2 hpres2 hfrB
                  have hfr1' : safeV P h2 (GoVal.arrRef a1) := hpres2 _ hfr1
                  have ht : ¬ P (Addr.arrA a1) := hfr1' _ (Reach.arrSelf a1)
                  have hcell : ∀ w ∈ (arrCell h2 a1).set idx.toNat
                      (GoVal.arrRef b), safeV P h2 w := by
                    intro w hw
                    rcases List.mem_or_eq_of_mem_set hw with h1m | h1m
                    · exact safeV_elem_arr hfr1' h1m
                    · rw [h1m]; exact hfrB
                  obtain ⟨hInv3, hpres3⟩ := frame_writeArr hInv2 ht hcell
                  have hfr3 : safeV P (writeArr h2 a1 ((arrCell h2 a1).set
                      idx.toNat (GoVal.arrRef b))) (GoVal.arrRef a1) :=
                    hpres3 _ hfr1'
                  obtain ⟨hInv4, hpres4, hroot4⟩ := frame_udr hInv3
                    (hpres3 _ (hpres2 _ (hpres1 _ hroot))) hfr3
                  refine ih _ _ _ _ _ heq hInv4 hroot4 ?_ ?_
                  · exact hpres4 _ (safeV_getD_arr _ hfr3)
                  · exact hpres4 _ (hpres3 _ (hpres2 _ (hpres1 _ hval)))
              | none =>
                simp only [setByPathRecursive, hga, if_neg hb, hgr,
                  List.headD, hnil, hga2] at heq
                rcases hal : allocObj h1 [] with ⟨h2, b⟩
                rw [hal] at heq
                obtain ⟨hInv2, hpres2, hfrB⟩ := frame_allocObj hP hInv1
                  (fun kw hkw => absurd hkw (List.not_mem_nil kw))
                rw [hal] at hInv2 hpres2 hfrB
                have hfr1' : safeV P h2 (GoVal.arrRef a1) := hpres2 _ hfr1
                have ht : ¬ P (Addr.arrA a1) := hfr1' _ (Reach.arrSelf a1)
                have hcell : ∀ w ∈ (arrCell h2 a1).set idx.toNat
                    (GoVal.objRef b), safeV P h2 w := by
                  intro w hw
                  rcases List.mem_or_eq_of_mem_set hw with h1m | h1m
                  · exact safeV_elem_arr hfr1' h1m
                  · rw [h1m]; exact hfrB
                obtain ⟨hInv3, hpres3⟩ := frame_writeArr hInv2 ht hcell
                have hfr3 : safeV P (writeArr h2 a1 ((arrCell h2 a1).set
                    idx.toNat (GoVal.objRef b))) (GoVal.arrRef a1) :=
                  hpres3 _ hfr1'
                obtain ⟨hInv4, hpres4, hroot4⟩ := frame_udr hInv3
                  (hpres3 _ (hpres2 _ (hpres1 _ hroot))) hfr3
                refine ih _ _ _ _ _ heq hInv4 hroot4 ?_ ?_
                · exact hpres4 _ (safeV_getD_arr _ hfr3)
                · exact hpres4 _ (hpres3 _ (hpres2 _ (hpres1 _ hval)))
            · simp only [setByPathRecursive, hga, if_neg hb, hgr,
                List.headD, hnil] at heq
              obtain ⟨hInv4, hpres4, hroot4⟩ := frame_udr hInv1
                (hpres1 _ hroot) hfr1
              refine ih _ _ _ _ _ heq hInv4 hroot4 ?_ ?_
              · exact hpres4 _ (safeV_getD_arr _ hfr1)
              · exact hpres4 _ (hpres1 _ hval)
        all_goals simp only [setByPathRecursive, hga] at heq
        all_goals cases heq
        all_goals exact ⟨hInv, hroot⟩
      | none =>
        cases cur
        case objRef o =>
          cases hmg : mapGet (objCell st.1 o) part with
          | some w =>
            simp only [setByPathRecursive, hga, hmg] at heq
            refine ih _ _ _ _ _ heq hInv hroot ?_ hval
            have hsafe := safeV_mapGetD part hcur
            rw [hmg] at hsafe
            simpa using hsafe
          | none =>
            cases hga2 : goAtoi p2 with
            | some nIdx =>
              simp only [setByPathRecursive, hga, List.headD, hmg, hga2] at heq
              rcases hal : allocArr st.1 [] with ⟨h2, b⟩
              rw [hal] at heq
              obtain ⟨hInv2, hpres2, hfrB⟩ := frame_allocArr hP hInv
                (fun w hw => absurd hw (List.not_mem_nil w))
              rw [hal] at hInv2 hpres2 hfrB
              have hcur2 : safeV P h2 (GoVal.objRef o) := hpres2 _ hcur
              have ht : ¬ P (Addr.objA o) := hcur2 _ (Reach.objSelf o)
              have hcell : ∀ kw ∈ mapSet (objCell h2 o) part (GoVal.arrRef b),
                  safeV P h2 kw.2 := by
                intro kw hkw
                rcases mem_mapSet hkw with h1m | h1m
                · exact safeV_elem_obj hcur2 h1m
                · rw [h1m]; exact hfrB
              obtain ⟨hInv3, hpres3⟩ := frame_writeObj hInv2 ht hcell
              refine ih _ _ _ _ _ heq hInv3 (hpres3 _ (hpres2 _ hroot)) ?_ ?_
              · exact safeV_mapGetD part (hpres3 _ hcur2)
              · exact hpres3 _ (hpres2 _ hval)
            | none =>
              simp only [setByPathRecursive, hga, List.headD, hmg, hga2] at heq
              rcases hal : allocObj st.1 [] with ⟨h2, b⟩
              rw [hal] at heq
              obtain ⟨hInv2, hpres2, hfrB⟩ := frame_allocObj hP hInv
                (fun kw hkw => absurd hkw (List.not_mem_nil kw))
              rw [hal] at hInv2 hpres2 hfrB
              have hcur2 : safeV P h2 (GoVal.objRef o) := hpres2 _ hcur
              have ht : ¬ P (Addr.objA o) := hcur2 _ (Reach.objSelf o)
              have hcell : ∀ kw ∈ mapSet (objCell h2 o) part (GoVal.objRef b),
                  safeV P h2 kw.2 := by
                intro kw hkw
                rcases mem_mapSet hkw with h1m | h1m
                · exact safeV_elem_obj hcur2 h1m
                · rw [h1m]; exact hfrB
              obtain ⟨hInv3, hpres3⟩ := frame_writeObj hInv2 ht hcell
              refine ih _ _ _ _ _ heq hInv3 (hpres3 _ (hpres2 _ hroot)) ?_ ?_
              · exact safeV_mapGetD part (hpres3 _ hcur2)
              · exact hpres3 _ (hpres2 _ hval)
        all_goals simp only [setByPathRecursive, hga] at heq
        all_goals cases heq
        all_goals exact ⟨hInv, hroot⟩

/-- Any heap is a frame of itself. -/
theorem frameInv_refl (H : Heap) (P : Addr → Prop) : frameInv H P H :=
  ⟨fun c _ => by cases c <;> rfl, le_refl _, le_refl _⟩

/-- Bounds are monotone under heap extension. -/
theorem inBounds_of_extends {h h' : Heap} (hex : heapExtends h h')
    {c : Addr} (hc : inBounds h c) : inBounds h' c := by
  cases c with
  | arrA a =>
    have h1 := hex.1
    simp only [inBounds] at hc ⊢
    omega
  | objA o =>
    have h1 := hex.2.1
    simp only [inBounds] at hc ⊢
    omega

/-- Frame lemma for `setByPath`: the nil-root coercion allocates a fresh
(hence safe) container, after which the recursion preserves the frame. -/
theorem frame_setByPath {H : Heap} {P : Addr → Prop} (hP : protOK H P)
    {h : Heap} {j : JSON} {path : String} {value : GoVal}
    {res : Heap × GoVal × Option String}
    (heq : setByPath h j path value = some res)
    (hInv : frameInv H P h) (hroot : safeV P h j.data)
    (hval : safeV P h value) :
    frameInv H P res.1 ∧ safeV P res.1 res.2.1 := by
  by_cases hp : path = ""
  · simp only [setByPath, hp, if_pos] at heq
    cases heq
    exact ⟨hInv, hval⟩
  · by_cases hnull : j.data = GoVal.null
    · cases hga : goAtoi ((splitDot path).headD "") with
      | some idx =>
        by_cases hneg : idx + 1 < 0
        · simp only [setByPath, if_neg hp, if_pos hnull, hga,
            if_pos hneg] at heq
          exact Option.noConfusion heq
        · rcases hal : allocArr h (List.replicate (idx + 1).toNat GoVal.null)
            with ⟨h1, a⟩
          simp only [setByPath, if_neg hp, if_pos hnull, hga,
            if_neg hneg, hal] at heq
          have hcellN : ∀ w ∈ List.replicate (idx + 1).toNat GoVal.null,
              safeV P h w := fun w hw => by
            rw [List.eq_of_mem_replicate hw]; exact safeV_null
          obtain ⟨hInv1, hpres1, hfr1⟩ := frame_allocArr hP hInv hcellN
          rw [hal] at hInv1 hpres1 hfr1
          cases hrec : setByPathRecursive (h1, GoVal.arrRef a)
              (GoVal.arrRef a) (splitDot path) value "" with
          | none => rw [hrec] at heq; exact Option.noConfusion heq
          | some pr =>
            rcases pr with ⟨⟨h2, root2⟩, e⟩
            rw [hrec] at heq
            cases heq
            exact frame_setRec hP _ _ _ _ _ _ hrec hInv1 hfr1 hfr1
              (hpres1 _ hval)
      | none =>
        rcases hal : allocObj h [] with ⟨h1, o⟩
        simp only [setByPath, if_neg hp, if_pos hnull, hga, hal] at heq
        obtain ⟨hInv1, hpres1, hfr1⟩ := frame_allocObj hP hInv
          (fun kw hkw => absurd hkw (List.not_mem_nil kw))
        rw [hal] at hInv1 hpres1 hfr1
        cases hrec : setByPathRecursive (h1, GoVal.objRef o)
            (GoVal.objRef o) (splitDot path) value "" with
        | none => rw [hrec] at heq; exact Option.noConfusion heq
        | some pr =>
          rcases pr with ⟨⟨h2, root2⟩, e⟩
          rw [hrec] at heq
          cases heq
          exact frame_setRec hP _ _ _ _ _ _ hrec hInv1 hfr1 hfr1
            (hpres1 _ hval)
    · simp only [setByPath, if_neg hp, if_neg hnull] at heq
      cases hrec : setByPathRecursive (h, j.data) j.data
          (splitDot path) value "" with
      | none => rw [hrec] at heq; exact Option.noConfusion heq
      | some pr =>
        rcases pr with ⟨⟨h2, root2⟩, e⟩
        rw [hrec] at heq
        cases heq
        exact frame_setRec hP _ _ _ _ _ _ hrec hInv hroot hroot hval

/-- Frame lemma for the `Set` method. -/
theorem frame_Set {H : Heap} {P : Addr → Prop} (hP : protOK H P)
    {h : Heap} {j : JSON} {path : String} {value : GoVal}
    {res : Heap × JSON} (heq : JSON.Set h j path value = some res)
    (hInv : frameInv H P h) (hroot : safeV P h j.data)
    (hval : safeV P h value) :
    frameInv H P res.1 ∧ safeV P res.1 res.2.data := by
  cases herr : j.err with
  | some e =>
    simp only [JSON.Set, herr] at heq
    cases heq
    exact ⟨hInv, hroot⟩
  | none =>
    simp only [JSON.Set, herr] at heq
    cases hsp : setByPath h j path value with
    | none => rw [hsp] at heq; exact Option.noConfusion heq
    | some r =>
      rcases r with ⟨h1, root, e⟩
      rw [hsp] at heq
      cases heq
      exact frame_setByPath hP hsp hInv hroot hval

/-- C9: `Clone` of a non-errored, well-formed value is a structurally
equal deep copy with fully independent storage.  The clone reads back as
the same tree as the source; a successful `Set` on the clone (with a
payload that does not alias the original) leaves every `Has`, `Get` and
tree read-back of the original unchanged; and symmetrically, a
successful `Set` on the original (with a payload that does not alias the
clone) leaves the clone's tree read-back unchanged. -/
theorem c9_clone_independent
    (fuel : Nat) (h0 : Heap) (v : JSON) (h1 : Heap) (c : JSON)
    (hverr : v.err = none)
    (hwf : ∀ cc, Reach h0 v.data cc → inBounds h0 cc)
    (hclone : JSON.Clone fuel h0 v = some (h1, c))
    (pc : String) (x : GoVal) (h2 : Heap) (c2 : JSON)
    (hxsafe : ∀ cc, Reach h1 x cc → ¬ Reach h1 v.data cc)
    (hset : JSON.Set h1 c pc x = some (h2, c2))
    (pv : String) (y : GoVal) (h3 : Heap) (v3 : JSON)
    (hysafe : ∀ cc, Reach h1 y cc → ¬ Reach h1 c.data cc)
    (hsetv : JSON.Set h1 v pv y = some (h3, v3)) :
    c.err = none ∧
    (∀ tf, toTree tf h1 c.data = toTree tf h0 v.data) ∧
    (∀ q, JSON.Has h2 v q = JSON.Has h0 v q) ∧
    (∀ q, JSON.Get h2 v q = JSON.Get h0 v q) ∧
    (∀ tf, toTree tf h2 v.data = toTree tf h0 v.data) ∧
    (∀ tf, toTree tf h3 c.data = toTree tf h0 v.data) := by
  simp only [JSON.Clone, hverr] at hclone
  cases hdc : deepClone fuel h0 v.data with
  | none => rw [hdc] at hclone; exact Option.noConfusion hclone
  | some pr =>
    rcases pr with ⟨h1', v'⟩
    rw [hdc] at hclone
    obtain ⟨hh1, hc⟩ : h1 = h1' ∧ c = ({ data := v', err := none } : JSON) := by
      constructor <;> cases hclone <;> rfl
    subst hh1
    subst hc
    obtain ⟨hex, hfresh, htr⟩ := (deepClone_spec fuel).1 h0 v.data h1 v' hwf hdc
    have hreach01 : ∀ cc, Reach h1 v.data cc → Reach h0 v.data cc :=
      fun cc hcc => reach_of_extends hex hwf hcc
    have hP1 : protOK h1 (fun cc => Reach h1 v.data cc) :=
      fun cc hcc => inBounds_of_extends hex (hwf cc (hreach01 cc hcc))
    have hrootsafe : safeV (fun cc => Reach h1 v.data cc) h1 v' :=
      fun cc hcc hPc => (hfresh cc hcc).2 (hwf cc (hreach01 cc hPc))
    obtain ⟨hInv2, _⟩ := frame_Set hP1 hset (frameInv_refl h1 _)
      hrootsafe hxsafe
    have hag12 : ∀ cc, Reach h1 v.data cc → cellAgree h1 h2 cc := hInv2.1
    have hag01 : ∀ cc, Reach h0 v.data cc → cellAgree h0 h1 cc :=
      agree_of_extends hex hwf
    have hQ1 : protOK h1 (fun cc => Reach h1 v' cc) :=
      fun cc hcc => (hfresh cc hcc).1
    have hvsafe : safeV (fun cc => Reach h1 v' cc) h1 v.data :=
      fun cc hcc hQc => (hfresh cc hQc).2 (hwf cc (hreach01 cc hcc))
    obtain ⟨hInv3, _⟩ := frame_Set hQ1 hsetv (frameInv_refl h1 _)
      hvsafe hysafe
    have hag13 : ∀ cc, Reach h1 v' cc → cellAgree h1 h3 cc := hInv3.1
    refine ⟨rfl, htr, ?_, ?_, ?_, ?_⟩
    · intro q
      exact (Has_congr v hag12 q).trans (Has_congr v hag01 q)
    · intro q
      simp only [JSON.Get, getByPath_congr v hag12 q, getByPath_congr v hag01 q]
    · intro tf
      exact ((toTree_congr_all tf).1 v.data hag12).trans
        ((toTree_congr_all tf).1 v.data hag01)
    · intro tf
      exact ((toTree_congr_all tf).1 v' hag13).trans (htr tf)

/-- C9 witness: cloning the object `{"x": 1}` then setting `"x"` to 2 on
the clone leaves `Has "x"` on the original unchanged; setting `"x"` to 5
on the original leaves the clone's tree read-back unchanged; and the
clone reads back as the original's tree. -/
theorem c9_clone_independent_witness :
    JSON.Has
        { arrs := [], objs := [[("x", GoVal.goInt 1)], [("x", GoVal.goInt 2)]] }
        { data := GoVal.objRef 0, err := none } "x" =
      JSON.Has { arrs := [], objs := [[("x", GoVal.goInt 1)]] }
        { data := GoVal.objRef 0, err := none } "x" ∧
    toTree 2
        { arrs := [], objs := [[("x", GoVal.goInt 5)], [("x", GoVal.goInt 1)]] }
        (GoVal.objRef 1) =
      toTree 2 { arrs := [], objs := [[("x", GoVal.goInt 1)]] }
        (GoVal.objRef 0) ∧
    toTree 2
        { arrs := [], objs := [[("x", GoVal.goInt 1)], [("x", GoVal.goInt 1)]] }
        (GoVal.objRef 1) =
      toTree 2 { arrs := [], objs := [[("x", GoVal.goInt 1)]] }
        (GoVal.objRef 0) := by
  have hscalar : ∀ (h : Heap) (n : Int) cc, Reach h (GoVal.goInt n) cc → False :=
    fun h n cc hcc => reach_scalar_false
      (fun _ hh => GoVal.noConfusion hh) (fun _ hh => GoVal.noConfusion hh) hcc
  have hwf0 : ∀ cc,
      Reach { arrs := [], objs := [[("x", GoVal.goInt 1)]] }
        ({ data := GoVal.objRef 0, err := none } : JSON).data cc →
      inBounds { arrs := [], objs := [[("x", GoVal.goInt 1)]] } cc := by
    intro cc hcc
    cases hcc with
    | objSelf => exact Nat.zero_lt_one
    | objStep hmem hsub =>
      rw [show objCell { arrs := [], objs := [[("x", GoVal.goInt 1)]] } 0 =
        [("x", GoVal.goInt 1)] from rfl] at hmem
      have hw := List.mem_singleton.mp hmem
      cases hw
      exact (hscalar _ _ _ hsub).elim
  have h := c9_clone_independent 3
    { arrs := [], objs := [[("x", GoVal.goInt 1)]] }
    { data := GoVal.objRef 0, err := none }
    { arrs := [], objs := [[("x", GoVal.goInt 1)], [("x", GoVal.goInt 1)]] }
    { data := GoVal.objRef 1, err := none }
    rfl hwf0
    (by simp [JSON.Clone, deepClone, deepClonePairs, objCell, allocObj])
    "x" (GoVal.goInt 2)
    { arrs := [], objs := [[("x", GoVal.goInt 1)], [("x", GoVal.goInt 2)]] }
    { data := GoVal.objRef 1, err := none }
    (fun cc hcc => (hscalar _ _ _ hcc).elim)
    (by decide)
    "x" (GoVal.goInt 5)
    { arrs := [], objs := [[("x", GoVal.goInt 5)], [("x", GoVal.goInt 1)]] }
    { data := GoVal.objRef 0, err := none }
    (fun cc hcc => (hscalar _ _ _ hcc).elim)
    (by decide)
  exact ⟨h.2.2.1 "x", h.2.2.2.2.2 2, h.2.1 2⟩

end Jsonx
